import Mathlib

/-!
Shallow embedding of the librarian-agent bot's spaced-repetition core
(`src/bot/src/exam.py`), quiz session handlers (`src/bot/src/handlers.py`)
and semantic index manager (`src/bot/src/embeddings.py`).

Numbers: Python floats are modelled by exact rationals (`ℚ`); Python's
`round` (banker's rounding, round-half-to-even) is modelled exactly on `ℚ`.
Dates: the tracker stores ISO `"YYYY-MM-DD"` strings; where a claim needs
date arithmetic (`today + timedelta(days=n)`) dates are modelled as integer
day numbers, and where a claim is about the lexicographic string comparison
performed by the code, dates are kept as strings.  The on-disk JSON
documents are modelled as association lists; `json.dump`/`json.load`
round-tripping is modelled as the identity on the stored value.
-/

-- ---------------------------------------------------------------------------
-- Generic association-list helpers (model of Python dict operations)
-- ---------------------------------------------------------------------------

/-- `d.get(k)` on a Python dict, modelled on an association list. -/
def lookupKey {κ α : Type} [DecidableEq κ] (l : List (κ × α)) (k : κ) : Option α :=
  (l.find? (fun p => decide (p.1 = k))).map (·.2)

/-- `d[k] = v` on a Python dict: replace in place if the key is present
(dicts keep insertion order), otherwise append at the end. -/
def setKey {κ α : Type} [DecidableEq κ] : List (κ × α) → κ → α → List (κ × α)
  | [], k, v => [(k, v)]
  | p :: rest, k, v =>
    if p.1 = k then (k, v) :: rest else p :: setKey rest k v

-- ---------------------------------------------------------------------------
-- Python `round` on rationals (banker's rounding / round-half-to-even)
-- ---------------------------------------------------------------------------

/-- Python's builtin `round(x)`: nearest integer, ties to even. -/
def pyRound (x : ℚ) : ℤ :=
  if x - ⌊x⌋ < 1/2 then ⌊x⌋
  else if x - ⌊x⌋ > 1/2 then ⌊x⌋ + 1
  else if Even ⌊x⌋ then ⌊x⌋ else ⌊x⌋ + 1

/-- Python's `round(x, 2)`: round to two decimal places, ties to even. -/
def pyRound2 (x : ℚ) : ℚ := (pyRound (x * 100) : ℚ) / 100

-- ---------------------------------------------------------------------------
-- SM-2 (exam.py: constants and `_sm2_update`)
-- ---------------------------------------------------------------------------

def DEFAULT_EASE_FACTOR : ℚ := 5/2

def MIN_EASE_FACTOR : ℚ := 13/10

/-- `_sm2_update(score, repetitions, ease_factor, interval_days)` from
exam.py, returning `(new_repetitions, new_ease, new_interval)`. -/
def sm2Update (score : ℤ) (repetitions : ℕ) (easeFactor : ℚ)
    (intervalDays : ℤ) : ℕ × ℚ × ℤ :=
  if score < 3 then (0, max MIN_EASE_FACTOR easeFactor, 1)
  else
    let newEase0 : ℚ :=
      easeFactor + 1/10 - (5 - (score : ℚ)) * (2/25 + (5 - (score : ℚ)) * (1/50))
    let newEase := max MIN_EASE_FACTOR newEase0
    let newInterval : ℤ :=
      if repetitions = 0 then 1
      else if repetitions = 1 then 3
      else max 1 (pyRound ((intervalDays : ℚ) * newEase))
    (repetitions + 1, newEase, newInterval)

-- ---------------------------------------------------------------------------
-- Review tracker (exam.py: `load_tracker`, `save_tracker`, `record_review`)
-- ---------------------------------------------------------------------------

/-- One value of the tracker's per-title record.  Dates are integer day
numbers (`datetime.now()` is day `today`; `timedelta(days = n)` is `+ n`). -/
structure TrackedItem where
  lastReviewed : Option ℤ
  nextReview : Option ℤ
  easeFactor : ℚ
  intervalDays : ℤ
  repetitions : ℕ
  history : List (ℤ × ℤ)
deriving DecidableEq

/-- The default item constructed by `record_review` for a first review. -/
def defaultItem : TrackedItem :=
  { lastReviewed := none, nextReview := none, easeFactor := DEFAULT_EASE_FACTOR
    intervalDays := 0, repetitions := 0, history := [] }

/-- The tracker JSON document `{cards: {...}, encounters: {...}}`. -/
structure Tracker where
  cards : List (String × TrackedItem)
  encounters : List (String × TrackedItem)
deriving DecidableEq

def emptyTracker : Tracker := { cards := [], encounters := [] }

/-- `load_tracker()`: missing file (or corrupt file) gives the fresh empty
state.  The store is `none` when the tracker file does not exist. -/
def loadTracker (store : Option Tracker) : Tracker := store.getD emptyTracker

/-- `section = "cards" if item_type == "card" else "encounters"` followed by
`tracker[section]`. -/
def trackerSection (t : Tracker) (itemType : String) :
    List (String × TrackedItem) :=
  if itemType = "card" then t.cards else t.encounters

/-- The pure core of `record_review` acting on an in-memory tracker value:
look up or default-construct the item, apply SM-2, stamp dates, append to
the 50-bounded history, write back under the key. -/
def recordReviewPure (tracker : Tracker) (itemType title : String)
    (score : ℤ) (today : ℤ) : Tracker × TrackedItem :=
  let sec := trackerSection tracker itemType
  let item := (lookupKey sec title).getD defaultItem
  let u := sm2Update score item.repetitions item.easeFactor item.intervalDays
  let newReps := u.1
  let newEase := u.2.1
  let newInterval := u.2.2
  let hist0 := item.history ++ [(today, score)]
  let hist := if hist0.length > 50 then hist0.drop (hist0.length - 50) else hist0
  let item' : TrackedItem :=
    { lastReviewed := some today, nextReview := some (today + newInterval)
      easeFactor := pyRound2 newEase, intervalDays := newInterval
      repetitions := newReps, history := hist }
  let sec' := setKey sec title item'
  (if itemType = "card" then { tracker with cards := sec' }
   else { tracker with encounters := sec' }, item')

/-- `record_review(item_type, title, score)`: loads the tracker from the
store, updates it, saves it back, and returns the updated item. -/
def recordReview (store : Option Tracker) (itemType title : String)
    (score : ℤ) (today : ℤ) : Option Tracker × TrackedItem :=
  let t := loadTracker store
  let r := recordReviewPure t itemType title score today
  (some r.1, r.2)

/-- A sequence of reviews applied to the store, each carrying
`(item_type, title, score, today)`. -/
def applyReviews (store : Option Tracker)
    (reviews : List (String × String × ℤ × ℤ)) : Option Tracker :=
  reviews.foldl (fun st r => (recordReview st r.1 r.2.1 r.2.2.1 r.2.2.2).1) store

/-- All ease factors stored in a tracker are at least 1.3. -/
def EaseInv (t : Tracker) : Prop :=
  (∀ p ∈ t.cards, MIN_EASE_FACTOR ≤ p.2.easeFactor) ∧
  (∀ p ∈ t.encounters, MIN_EASE_FACTOR ≤ p.2.easeFactor)

-- ---------------------------------------------------------------------------
-- Due-item selection (exam.py: `get_due_items`)
-- ---------------------------------------------------------------------------

/-- The view of a stored tracker record used by `get_due_items`: only
`next_review` (an ISO date string, compared lexicographically) and
`ease_factor` are read.  `none` models an absent `next_review` key. -/
structure TrackedItemS where
  nextReview : Option String
  easeFactor : ℚ
deriving DecidableEq

/-- The tracker document as read by `get_due_items`, dates as strings. -/
structure TrackerS where
  cards : List (String × TrackedItemS)
  encounters : List (String × TrackedItemS)
deriving DecidableEq

def trackerSectionS (t : TrackerS) (itemType : String) :
    List (String × TrackedItemS) :=
  if itemType = "card" then t.cards else t.encounters

/-- A reviewable item as produced by `get_reviewable_items` (only the
fields used by due selection). -/
structure RItem where
  rtype : String
  title : String
deriving DecidableEq

/-- A reviewable item annotated by `get_due_items`: `priority`,
`never_reviewed`, and (only for already-tracked items) `ease_factor`. -/
structure DueEntry where
  item : RItem
  priority : ℕ
  neverReviewed : Bool
  easeFactor : Option ℚ
deriving DecidableEq

/-- The `"9999-99-99"` default used for a missing `next_review` key. -/
def NEXT_REVIEW_SENTINEL : String := "9999-99-99"

/-- Code-point lexicographic `<=` on character lists: Python's string
comparison (and Lean's string order, in an executable form). -/
def lexLeCh : List Char → List Char → Bool
  | [], _ => true
  | _ :: _, [] => false
  | a :: as, b :: bs =>
    if a < b then true else if b < a then false else lexLeCh as bs

/-- Python's `s <= t` on strings. -/
def strLeB (a b : String) : Bool := lexLeCh a.data b.data

/-- The sort key `(x.get("priority", 99), x.get("ease_factor", 2.5))`. -/
def dueKey (e : DueEntry) : ℕ × ℚ :=
  (e.priority, e.easeFactor.getD DEFAULT_EASE_FACTOR)

/-- Lexicographic comparison of Python tuples `(priority, ease_factor)`. -/
def keyLE (a b : ℕ × ℚ) : Prop := a.1 < b.1 ∨ (a.1 = b.1 ∧ a.2 ≤ b.2)

instance : DecidableRel keyLE := fun a b => by
  unfold keyLE
  infer_instance

def dueLE (a b : DueEntry) : Prop := keyLE (dueKey a) (dueKey b)

instance : DecidableRel dueLE := fun a b => by
  unfold dueLE
  infer_instance

instance : IsTotal DueEntry dueLE :=
  ⟨fun a b => by
    unfold dueLE keyLE
    rcases lt_trichotomy (dueKey a).1 (dueKey b).1 with h | h | h
    · exact Or.inl (Or.inl h)
    · rcases le_total (dueKey a).2 (dueKey b).2 with h2 | h2
      · exact Or.inl (Or.inr ⟨h, h2⟩)
      · exact Or.inr (Or.inr ⟨h.symm, h2⟩)
    · exact Or.inr (Or.inl h)⟩

instance : IsTrans DueEntry dueLE :=
  ⟨fun a b c hab hbc => by
    unfold dueLE keyLE at hab hbc ⊢
    rcases hab with h | ⟨he, h2⟩ <;> rcases hbc with h' | ⟨he', h2'⟩
    · exact Or.inl (h.trans h')
    · exact Or.inl (he' ▸ h)
    · exact Or.inl (he ▸ h')
    · exact Or.inr ⟨he.trans he', h2.trans h2'⟩⟩

/-- The filtering loop of `get_due_items`: absent tracker record gives
priority 0 (never reviewed); a record whose `next_review` (defaulting to
the sentinel) is lexicographically at most `today` gives priority 1 with
the record's ease factor; anything else is excluded. -/
def dueFilter (tracker : TrackerS) (today : String) (reviewable : List RItem) :
    List DueEntry :=
  reviewable.filterMap (fun r =>
    match lookupKey (trackerSectionS tracker r.rtype) r.title with
    | none => some ⟨r, 0, true, none⟩
    | some tr =>
      if strLeB (tr.nextReview.getD NEXT_REVIEW_SENTINEL) today
      then some ⟨r, 1, false, some tr.easeFactor⟩
      else none)

/-- `get_due_items()`: filter, then Python's stable ascending sort by the
tuple key `(priority, ease_factor)` (a stable sort under a total preorder
is unique, so `insertionSort` models `list.sort` exactly). -/
def getDueItems (tracker : TrackerS) (today : String)
    (reviewable : List RItem) : List DueEntry :=
  List.insertionSort dueLE (dueFilter tracker today reviewable)

-- ---------------------------------------------------------------------------
-- Quiz session state machine (exam.py: `QuizSession`; handlers.py:
-- `_handle_quiz_answer`, `skip_handler`, `_send_next_question_or_finish`)
-- ---------------------------------------------------------------------------

structure QuizQuestion where
  question : String
  sourceTitle : String
  sourceType : String
  questionType : String
  reference : String
  expectedAnswer : String
deriving DecidableEq

structure QuizSession where
  questions : List QuizQuestion
  currentIndex : ℕ
  scores : List ℤ
  answers : List String
  active : Bool
deriving DecidableEq

/-- `QuizSession.current_question`: `questions[current_index]` when
`0 <= current_index < len(questions)`, else `None`. -/
def QuizSession.currentQuestion (s : QuizSession) : Option QuizQuestion :=
  s.questions[s.currentIndex]?

/-- `QuizSession.is_complete`: `current_index >= len(questions)`. -/
def QuizSession.isComplete (s : QuizSession) : Bool :=
  decide (s.questions.length ≤ s.currentIndex)

/-- An invocation of `exam.record_review(source_type, source_title, score)`. -/
abbrev RecordCall := String × String × ℤ

/-- The session mutation done by `_handle_quiz_answer` once the answer has
been evaluated to `score`: append score and raw answer, call
`record_review` when `score >= 0`, advance the cursor. -/
def answerStep (s : QuizSession) (score : ℤ) (text : String) :
    QuizSession × List RecordCall :=
  if s.active && !s.isComplete then
    match s.currentQuestion with
    | none => (s, [])
    | some q =>
      ({ s with
          scores := s.scores ++ [score]
          answers := s.answers ++ [text]
          currentIndex := s.currentIndex + 1 },
       if 0 ≤ score then [(q.sourceType, q.sourceTitle, score)] else [])
  else (s, [])

/-- The session mutation done by `skip_handler`: record the `-1` sentinel
and `"[skipped]"`, advance the cursor, never touch the tracker. -/
def skipStep (s : QuizSession) : QuizSession × List RecordCall :=
  if s.active then
    match s.currentQuestion with
    | some _ =>
      ({ s with
          scores := s.scores ++ [-1]
          answers := s.answers ++ ["[skipped]"]
          currentIndex := s.currentIndex + 1 }, [])
    | none => ({ s with currentIndex := s.currentIndex + 1 }, [])
  else (s, [])

/-- `_send_next_question_or_finish` on the per-user session map: when the
session is complete the summary is emitted and the session is popped
(`none`); otherwise it stays alive. -/
def sessionAfterEmit (s : QuizSession) : Option QuizSession :=
  if s.isComplete then none else some s

/-- The summary's `valid_scores = [s for s in quiz.scores if s >= 0]`. -/
def validScores (s : QuizSession) : List ℤ := s.scores.filter (fun x => 0 ≤ x)

/-- The summary's `max_total = len(valid_scores) * 5`. -/
def maxTotal (s : QuizSession) : ℕ := (validScores s).length * 5

/-- A user interaction while a quiz is active: a free-text answer (already
evaluated to `score`) or a `/skip`. -/
inductive QuizStep where
  | answer (score : ℤ) (text : String)
  | skip
deriving DecidableEq

def applyStep (s : QuizSession) : QuizStep → QuizSession × List RecordCall
  | .answer sc tx => answerStep s sc tx
  | .skip => skipStep s

def runSteps (s : QuizSession) : List QuizStep → QuizSession × List RecordCall
  | [] => (s, [])
  | st :: rest =>
    let r := applyStep s st
    let r2 := runSteps r.1 rest
    (r2.1, r.2 ++ r2.2)

/-- `exam.QuizSession(questions=questions, active=True)`. -/
def startSession (qs : List QuizQuestion) : QuizSession :=
  { questions := qs, currentIndex := 0, scores := [], answers := [],
    active := true }

/-- The score a step leaves in `quiz.scores`. -/
def stepScore : QuizStep → ℤ
  | .answer sc _ => sc
  | .skip => -1

/-- The raw text a step leaves in `quiz.answers`. -/
def stepText : QuizStep → String
  | .answer _ tx => tx
  | .skip => "[skipped]"

/-- Evaluated answers carry a score in `[0, 5]`; skips carry no score. -/
def stepScoreOk : QuizStep → Prop
  | .answer sc _ => 0 ≤ sc
  | .skip => True

/-- The `record_review` call (if any) a step at question `q` performs. -/
def recCallOf : QuizStep × QuizQuestion → Option RecordCall
  | (.answer sc _, q) => if 0 ≤ sc then some (q.sourceType, q.sourceTitle, sc) else none
  | (.skip, _) => none

-- ---------------------------------------------------------------------------
-- Answer evaluation (exam.py: `evaluate_answer`; handlers.py:
-- `_handle_quiz_answer`)
-- ---------------------------------------------------------------------------

/-- The parsed JSON of a successful LLM evaluation call (fields read with
`.get` defaults already applied). -/
structure EvalResponse where
  score : ℤ
  emoji : String
  feedback : String
  correctAnswer : String
  tip : String
deriving DecidableEq

/-- `evaluate_answer(question, user_answer)`: on a successful LLM response
the score is clamped into `[0, 5]`; on any failure (`resp = none`) the
sentinel result with score 0 and the evaluation-failed feedback is
returned. -/
def evaluateAnswer (question : QuizQuestion) (resp : Option EvalResponse) :
    EvalResponse :=
  match resp with
  | some r =>
    { score := min 5 (max 0 r.score), emoji := r.emoji, feedback := r.feedback
      correctAnswer := r.correctAnswer, tip := r.tip }
  | none =>
    { score := 0, emoji := "❓", feedback := "Error al evaluar la respuesta."
      correctAnswer := question.expectedAnswer, tip := "" }

/-- A concrete three-question quiz used as a witness input. -/
def wQuiz3 : List QuizQuestion :=
  [⟨"q1", "T", "card", "recall", "", "a1"⟩,
   ⟨"q2", "T", "card", "synthesis", "", "a2"⟩,
   ⟨"q3", "T", "card", "application", "", "a3"⟩]

/-- Two real answers and one skip, as a witness input. -/
def wSteps3 : List QuizStep :=
  [.answer 4 "resp1", .skip, .answer 3 "resp2"]

-- ---------------------------------------------------------------------------
-- Fuzzy title lookup (handlers.py: `_find_item_by_title`), including an
-- exact model of `difflib.SequenceMatcher.ratio` (Ratcliff–Obershelp) on
-- character lists; titles are short, so difflib's autojunk never applies.
-- ---------------------------------------------------------------------------

/-- `s.lower()` (ASCII case folding, as in the vault's titles). -/
def toLowerCh (l : List Char) : List Char := l.map Char.toLower

/-- `s.strip()`. -/
def stripCh (l : List Char) : List Char :=
  ((l.dropWhile Char.isWhitespace).reverse.dropWhile Char.isWhitespace).reverse

/-- Length of the longest common prefix. -/
def commonPrefixLen : List Char → List Char → ℕ
  | a :: as, b :: bs => if a = b then commonPrefixLen as bs + 1 else 0
  | _, _ => 0

/-- Length of the longest common run starting at positions `i`, `j`. -/
def extLen (a b : List Char) (i j : ℕ) : ℕ :=
  commonPrefixLen (a.drop i) (b.drop j)

/-- `SequenceMatcher.find_longest_match`: the longest matching block, ties
broken towards the smallest `i`, then the smallest `j` (this is exactly
difflib's first-maximum scan order); returns `(i, j, size)`. -/
def findLongestMatch (a b : List Char) : ℕ × ℕ × ℕ :=
  ((List.range (a.length + 1)).flatMap (fun i =>
    (List.range (b.length + 1)).map (fun j => (i, j, extLen a b i j)))).foldl
    (fun best c => if best.2.2 < c.2.2 then c else best) (0, 0, 0)

/-- Total size of `SequenceMatcher.get_matching_blocks`: recursively take
the longest match and recurse on both sides.  The fuel `a.length + 1`
bounds the recursion depth, which shrinks `a` strictly at every level. -/
def matchTotalF : ℕ → List Char → List Char → ℕ
  | 0, _, _ => 0
  | fuel + 1, a, b =>
    let m := findLongestMatch a b
    if m.2.2 = 0 then 0
    else
      matchTotalF fuel (a.take m.1) (b.take m.2.1) + m.2.2 +
      matchTotalF fuel (a.drop (m.1 + m.2.2)) (b.drop (m.2.1 + m.2.2))

def matchTotal (a b : List Char) : ℕ := matchTotalF (a.length + 1) a b

/-- `SequenceMatcher(None, a, b).ratio() = 2*M/T` (difflib returns 1.0 when
both sequences are empty). -/
def simRatio (a b : List Char) : ℚ :=
  if a.length + b.length = 0 then 1
  else 2 * (matchTotal a b : ℚ) / ((a.length : ℚ) + (b.length : ℚ))

/-- Python `str.split()`: split on whitespace runs, dropping empties. -/
def splitWsAux (cur : List Char) : List Char → List (List Char)
  | [] => if cur.isEmpty then [] else [cur.reverse]
  | c :: rest =>
    if c.isWhitespace then
      if cur.isEmpty then splitWsAux [] rest
      else cur.reverse :: splitWsAux [] rest
    else splitWsAux (c :: cur) rest

def splitWs (l : List Char) : List (List Char) := splitWsAux [] l

/-- The word-overlap suggestion list of `_find_item_by_title` step 3. -/
def wordSuggestions (q : List Char) (titles : List (List Char)) :
    List (List Char) :=
  (titles.filter (fun t =>
    (splitWs q).any (fun w => decide (List.IsInfix w (toLowerCh t))))).take 5

/-- One iteration of the best-ratio scan of `_find_item_by_title` step 2:
keep the strictly larger ratio (first maximum wins, as in the loop). -/
def bestStep (q : List Char) (best : ℚ × Option (List Char))
    (t : List Char) : ℚ × Option (List Char) :=
  let r := simRatio q (toLowerCh t)
  if best.1 < r then (r, some t) else best

/-- `_find_item_by_title(query, items)` over the item titles: exact
case-insensitive equality, then substring either way, then best
`SequenceMatcher` ratio strictly above 0.6, else no match plus up to five
word-overlap suggestions. -/
def findItemByTitle (query : List Char) (titles : List (List Char)) :
    Option (List Char) × List (List Char) :=
  let q := stripCh (toLowerCh query)
  match titles.find? (fun t => toLowerCh t == q) with
  | some t => (some t, [])
  | none =>
    match titles.find? (fun t =>
        decide (List.IsInfix q (toLowerCh t)) ||
        decide (List.IsInfix (toLowerCh t) q)) with
    | some t => (some t, [])
    | none =>
      let best := titles.foldl (bestStep q)
        ((0 : ℚ), (none : Option (List Char)))
      if 3/5 < best.1 then
        match best.2 with
        | some t => (some t, [])
        | none => (none, wordSuggestions q titles)
      else (none, wordSuggestions q titles)

-- ---------------------------------------------------------------------------
-- Markdown chunking (embeddings.py: `_strip_frontmatter`, `_chunk_file`)
-- ---------------------------------------------------------------------------

def MAX_CHUNK_CHARS : ℕ := 2000

/-- `re.split(r"\n{2,}", body)`: split at each run of two or more
newlines. -/
def splitParasAux (cur : List Char) : List Char → List (List Char)
  | [] => [cur.reverse]
  | '\n' :: '\n' :: rest =>
    cur.reverse :: splitParasAux [] (rest.dropWhile (fun c => c = '\n'))
  | c :: rest => splitParasAux (c :: cur) rest
termination_by l => l.length
decreasing_by
  · have h := (@List.dropWhile_sublist Char rest (fun c => decide (c = '\n'))).length_le
    simp only [List.length_cons]
    omega
  · simp

def splitParas (body : List Char) : List (List Char) := splitParasAux [] body

/-- The greedy paragraph-packing loop of `_chunk_file` for a section body
over the cap: flush the stripped buffer whenever appending the next
paragraph plus the two joining newlines would exceed the cap, then append
the paragraph (followed by a blank line); finally emit the stripped buffer
when nonempty. -/
def packAux (buf : List Char) : List (List Char) → List (List Char)
  | [] => if (stripCh buf).isEmpty then [] else [stripCh buf]
  | p :: rest =>
    if buf ≠ [] ∧ MAX_CHUNK_CHARS < buf.length + p.length + 2 then
      stripCh buf :: packAux (p ++ ['\n', '\n']) rest
    else packAux (buf ++ p ++ ['\n', '\n']) rest

/-- Chunking of one `(heading, body)` section: bodies at most the cap stay
whole; larger bodies go through the paragraph packer. -/
def chunkBody (body : List Char) : List (List Char) :=
  if body.length ≤ MAX_CHUNK_CHARS then [body]
  else packAux [] (splitParas body)

def splitLinesAux (cur : List Char) : List Char → List (List Char)
  | [] => [cur.reverse]
  | c :: rest =>
    if c = '\n' then cur.reverse :: splitLinesAux [] rest
    else splitLinesAux (c :: cur) rest

def splitLines (l : List Char) : List (List Char) := splitLinesAux [] l

def joinLines (ls : List (List Char)) : List Char := List.intercalate ['\n'] ls

/-- A line matching the heading regexp `^(#{1,6})\s+(.*)` of `_chunk_file`
(modelled line by line): one to six leading hashes followed by at least one
whitespace character; yields `m.group(2).strip()`. -/
def headingTitle (line : List Char) : Option (List Char) :=
  let hashes := line.takeWhile (fun c => c = '#')
  let rest := line.drop hashes.length
  if 1 ≤ hashes.length ∧ hashes.length ≤ 6 then
    match rest with
    | c :: _ => if c.isWhitespace then some (stripCh rest) else none
    | [] => none
  else none

/-- The section scan of `_chunk_file`: walk lines keeping the current
heading (initially the file title); each heading closes the previous
`(heading, stripped body)` section, kept only when the body is nonempty. -/
def splitSectionsAux (curHead : List Char) (curBody : List (List Char)) :
    List (List Char) → List (List Char × List Char)
  | [] =>
    if (stripCh (joinLines curBody)).isEmpty then []
    else [(curHead, stripCh (joinLines curBody))]
  | line :: rest =>
    match headingTitle line with
    | some h =>
      if (stripCh (joinLines curBody)).isEmpty then splitSectionsAux h [] rest
      else (curHead, stripCh (joinLines curBody)) :: splitSectionsAux h [] rest
    | none => splitSectionsAux curHead (curBody ++ [line]) rest

/-- Position of the first `"---"` occurrence. -/
def findDashes : List Char → Option ℕ
  | '-' :: '-' :: '-' :: _ => some 0
  | _ :: rest => (findDashes rest).map (· + 1)
  | [] => none

/-- `_strip_frontmatter`: when the file starts with `---`, drop up to and
including the next `"---"` and any following newlines. -/
def stripFrontmatter (raw : List Char) : List Char :=
  if raw.take 3 = ['-', '-', '-'] then
    match findDashes (raw.drop 3) with
    | some k => (raw.drop (3 + k + 3)).dropWhile (fun c => c = '\n')
    | none => raw
  else raw

/-- `_chunk_file` restricted to its text content: the ordered
`(section heading, chunk text)` pairs produced for a file whose stem is
`title` and whose raw content is `raw`. -/
def chunkFile (title : List Char) (raw : List Char) :
    List (List Char × List Char) :=
  (splitSectionsAux title [] (splitLines (stripFrontmatter raw))).flatMap
    (fun s => (chunkBody s.2).map (fun text => (s.1, text)))

-- ---------------------------------------------------------------------------
-- Semantic index manager (embeddings.py: `ensure_index`)
-- ---------------------------------------------------------------------------

def EMBEDDING_MODEL : String := "text-embedding-3-small"

def EMBEDDING_DIM : ℕ := 1536

structure ChunkMeta where
  relPath : String
  title : String
  sectionName : String
  text : String
deriving DecidableEq

structure FileRec where
  mtime : ℤ
  size : ℤ
  chunkIds : List ℕ
deriving DecidableEq

/-- The manifest JSON document
`{model, dim, next_id, files: {...}, chunks: {...}}`. -/
structure Manifest where
  model : String
  dim : ℕ
  nextId : ℕ
  files : List (String × FileRec)
  chunks : List (ℕ × ChunkMeta)
deriving DecidableEq

def freshManifest : Manifest :=
  { model := EMBEDDING_MODEL, dim := EMBEDDING_DIM, nextId := 0
    files := [], chunks := [] }

/-- The vector index, modelled by the ids it stores (the vectors
themselves play no role in the claims). -/
abbrev VIndex := List ℕ

/-- A scanned vault file together with its `_chunk_file` output. -/
structure VaultFile where
  relPath : String
  mtime : ℤ
  size : ℤ
  chunks : List ChunkMeta
deriving DecidableEq

/-- `index.remove_ids([cid])` repeated over `ids`: every vector stored
under one of the ids disappears. -/
def removeIds (i : VIndex) (ids : List ℕ) : VIndex :=
  i.filter (fun x => !ids.contains x)

/-- `manifest["chunks"].pop(str(cid), None)` repeated over `ids`. -/
def removeChunks (cs : List (ℕ × ChunkMeta)) (ids : List ℕ) :
    List (ℕ × ChunkMeta) :=
  cs.filter (fun p => !ids.contains p.1)

/-- Step 3 of `ensure_index`: pop every manifest file entry whose path
left the vault, removing its chunk ids from the vector index and from the
chunks map; count the popped entries. -/
def removalPass (m : Manifest) (i : VIndex) (vaultKeys : List String) :
    Manifest × VIndex × ℕ :=
  let removed := m.files.filter (fun p => !vaultKeys.contains p.1)
  let kept := m.files.filter (fun p => vaultKeys.contains p.1)
  let rids := removed.flatMap (fun p => p.2.chunkIds)
  ({ m with files := kept, chunks := removeChunks m.chunks rids },
   removeIds i rids, removed.length)

/-- Step 4 of `ensure_index`: walk the vault scan; a file with no manifest
entry is queued; a file whose `(mtime, size)` differs from the manifest's
last-seen values first has its old chunks removed from the vector index
and the chunks map (the file entry itself stays), then is queued. -/
def detectPass (m : Manifest) (i : VIndex) :
    List VaultFile → Manifest × VIndex × List VaultFile
  | [] => (m, i, [])
  | vf :: rest =>
    match lookupKey m.files vf.relPath with
    | none =>
      let r := detectPass m i rest
      (r.1, r.2.1, vf :: r.2.2)
    | some fr =>
      if fr.mtime ≠ vf.mtime ∨ fr.size ≠ vf.size then
        let r := detectPass
          { m with chunks := removeChunks m.chunks fr.chunkIds }
          (removeIds i fr.chunkIds) rest
        (r.1, r.2.1, vf :: r.2.2)
      else detectPass m i rest

/-- Step 7 of `ensure_index` for one queued file: fresh consecutive ids
from `next_id`, vectors added under those ids, chunk entries recorded, and
the manifest file entry written wholesale; reports whether the file
already had an entry (`updated`) or not (`added`). -/
def upsertFile (m : Manifest) (i : VIndex) (vf : VaultFile) :
    Manifest × VIndex × Bool :=
  let wasExisting := (lookupKey m.files vf.relPath).isSome
  let cids := List.range' m.nextId vf.chunks.length
  ({ m with
      nextId := m.nextId + vf.chunks.length
      chunks := m.chunks ++ cids.zip vf.chunks
      files := setKey m.files vf.relPath ⟨vf.mtime, vf.size, cids⟩ },
   i ++ cids, wasExisting)

def upsertAll (m : Manifest) (i : VIndex) :
    List VaultFile → Manifest × VIndex × ℕ × ℕ
  | [] => (m, i, 0, 0)
  | vf :: rest =>
    let u := upsertFile m i vf
    let r := upsertAll u.1 u.2.1 rest
    (r.1, r.2.1,
     if u.2.2 then r.2.2.1 else r.2.2.1 + 1,
     if u.2.2 then r.2.2.2 + 1 else r.2.2.2)

/-- `ensure_index(force)` on the persisted `(manifest, index)` pair,
returning the new persisted state and `(added, updated, removed)`.
`hasFaiss` and `hasKey` model the faiss import and the OpenAI API key;
when either is missing the call returns with nothing touched.  An empty
embedding result (only possible without a key) aborts before the persist
step, so the stored state stays as it was. -/
def ensureIndex (force hasFaiss hasKey : Bool) (vault : List VaultFile)
    (m0 : Manifest) (i0 : VIndex) : Manifest × VIndex × (ℕ × ℕ × ℕ) :=
  if !hasFaiss || !hasKey then (m0, i0, (0, 0, 0)) else
  let mi :=
    if force = true ∨ m0.model ≠ EMBEDDING_MODEL ∨ m0.dim ≠ EMBEDDING_DIM
    then (freshManifest, ([] : VIndex))
    else (m0, i0)
  let vaultKeys := vault.map (·.relPath)
  let r1 := removalPass mi.1 mi.2 vaultKeys
  let removedCount := r1.2.2
  let r2 := detectPass r1.1 r1.2.1 vault
  let queue := r2.2.2
  if queue.isEmpty then (r2.1, r2.2.1, (0, 0, removedCount))
  else if queue.all (fun vf => vf.chunks.isEmpty) then
    (r2.1, r2.2.1, (0, 0, removedCount))
  else if !hasKey then (m0, i0, (0, 0, removedCount))
  else
    let r3 := upsertAll r2.1 r2.2.1 queue
    (r3.1, r3.2.1, (r3.2.2.1, r3.2.2.2, removedCount))

def chunkKeys (m : Manifest) : List ℕ := m.chunks.map (·.1)

/-- How many manifest file entries reference a chunk id. -/
def ownerCount (files : List (String × FileRec)) (id : ℕ) : ℕ :=
  files.countP (fun p => p.2.chunkIds.contains id)

/-- The index/manifest consistency invariant: the vector index holds
exactly the ids of the manifest's chunks map, each such id is referenced
by exactly one file entry, and every referenced id is below `next_id`. -/
structure IndexInv (m : Manifest) (i : VIndex) : Prop where
  nodupIndex : i.Nodup
  nodupChunks : (chunkKeys m).Nodup
  nodupFiles : (m.files.map (·.1)).Nodup
  subIC : ∀ id ∈ i, id ∈ chunkKeys m
  subCI : ∀ id ∈ chunkKeys m, id ∈ i
  owned : ∀ id ∈ chunkKeys m, ownerCount m.files id = 1
  idBound : ∀ p ∈ m.files, ∀ id ∈ p.2.chunkIds, id < m.nextId

/-- The ids removed by the change-detection pass: old ids of every scanned
file whose `(mtime, size)` no longer matches its manifest entry. -/
def staleIds (files : List (String × FileRec)) : List VaultFile → List ℕ
  | [] => []
  | vf :: rest =>
    (match lookupKey files vf.relPath with
     | none => []
     | some fr =>
       if fr.mtime ≠ vf.mtime ∨ fr.size ≠ vf.size then fr.chunkIds else [])
    ++ staleIds files rest

/-- Whether the change-detection pass queues a scanned file. -/
def needsProcess (files : List (String × FileRec)) (vf : VaultFile) : Bool :=
  match lookupKey files vf.relPath with
  | none => true
  | some fr => decide (fr.mtime ≠ vf.mtime ∨ fr.size ≠ vf.size)

/-- The body of `ensure_index` after the rebuild decision (removal pass,
change detection, then — unless nothing needs embedding — the upsert pass),
as a function of the state the rebuild decision picked. -/
def pipeline (vault : List VaultFile) (m : Manifest) (i : VIndex) :
    Manifest × VIndex × (ℕ × ℕ × ℕ) :=
  let r1 := removalPass m i (vault.map (·.relPath))
  let r2 := detectPass r1.1 r1.2.1 vault
  let queue := r2.2.2
  if queue.isEmpty then (r2.1, r2.2.1, (0, 0, r1.2.2))
  else if queue.all (fun vf => vf.chunks.isEmpty) then
    (r2.1, r2.2.1, (0, 0, r1.2.2))
  else
    let r3 := upsertAll r2.1 r2.2.1 queue
    (r3.1, r3.2.1, (r3.2.2.1, r3.2.2.2, r1.2.2))

/-- A persisted state on which the vault scan finds nothing to do: every
manifest file entry is still in the vault; every scanned file either
matches its entry's `(mtime, size)` or has nothing to embed (with any
stale ids already gone from the index and the chunks map); and scanned
files without an entry have nothing to embed. -/
def stableState (vault : List VaultFile) (m : Manifest) (i : VIndex) : Prop :=
  (∀ p ∈ m.files, p.1 ∈ vault.map (·.relPath)) ∧
  (∀ vf ∈ vault, ∀ fr, lookupKey m.files vf.relPath = some fr →
    (fr.mtime = vf.mtime ∧ fr.size = vf.size) ∨
    (vf.chunks = [] ∧ ∀ id ∈ fr.chunkIds, id ∉ i ∧ id ∉ chunkKeys m)) ∧
  (∀ vf ∈ vault, lookupKey m.files vf.relPath = none → vf.chunks = [])

/-- A concrete deleted-file scenario: the manifest tracks one vault file
with two chunks, the vector index holds the matching two ids, and the
vault no longer contains the file. -/
def wM6 : Manifest :=
  { model := EMBEDDING_MODEL, dim := EMBEDDING_DIM, nextId := 2
    files := [("Cards/old.md", ⟨1, 5, [0, 1]⟩)]
    chunks := [(0, ⟨"Cards/old.md", "old", "old", "a"⟩),
               (1, ⟨"Cards/old.md", "old", "old", "b"⟩)] }

def wI6 : VIndex := [0, 1]

/-- A concrete one-file vault for exercising a full index build. -/
def wVault7 : List VaultFile :=
  [⟨"Cards/new.md", 3, 7, [⟨"Cards/new.md", "new", "", "hello"⟩]⟩]

-- ---------------------------------------------------------------------------
-- Helper lemmas
-- ---------------------------------------------------------------------------

theorem lookupKey_cons {κ α : Type} [DecidableEq κ]
    (a : κ) (b : α) (rest : List (κ × α)) (k : κ) :
    lookupKey ((a, b) :: rest) k = if a = k then some b else lookupKey rest k := by
  by_cases h : a = k <;> simp [lookupKey, List.find?, h]

theorem lookupKey_setKey_self {κ α : Type} [DecidableEq κ]
    (l : List (κ × α)) (k : κ) (v : α) :
    lookupKey (setKey l k v) k = some v := by
  induction l with
  | nil => simp [setKey, lookupKey_cons]
  | cons p rest ih =>
    obtain ⟨pk, pv⟩ := p
    by_cases hk : pk = k
    · simp [setKey, hk, lookupKey_cons]
    · simp [setKey, hk, lookupKey_cons, ih]

theorem lookupKey_setKey_ne {κ α : Type} [DecidableEq κ]
    (l : List (κ × α)) (k k' : κ) (v : α) (h : k' ≠ k) :
    lookupKey (setKey l k v) k' = lookupKey l k' := by
  induction l with
  | nil => simp [setKey, lookupKey, List.find?, Ne.symm h]
  | cons p rest ih =>
    obtain ⟨pk, pv⟩ := p
    by_cases hk : pk = k
    · subst hk
      simp [setKey, lookupKey_cons, Ne.symm h]
    · by_cases hk' : pk = k'
      · subst hk'
        simp [setKey, hk, lookupKey_cons]
      · simp [setKey, hk, lookupKey_cons, hk', ih]

theorem mem_setKey {κ α : Type} [DecidableEq κ]
    {l : List (κ × α)} {k : κ} {v : α} {p : κ × α}
    (h : p ∈ setKey l k v) : p = (k, v) ∨ p ∈ l := by
  induction l with
  | nil => simpa [setKey] using h
  | cons q rest ih =>
    by_cases hk : q.1 = k
    · simp only [setKey, hk, if_pos] at h
      rcases List.mem_cons.mp h with h | h
      · exact Or.inl h
      · exact Or.inr (List.mem_cons_of_mem _ h)
    · simp only [setKey, hk, if_neg, not_false_iff] at h
      rcases List.mem_cons.mp h with h | h
      · exact Or.inr (h ▸ List.mem_cons_self _ _)
      · rcases ih h with h | h
        · exact Or.inl h
        · exact Or.inr (List.mem_cons_of_mem _ h)

theorem pyRound_ge (x : ℚ) (n : ℤ) (h : (n : ℚ) ≤ x) : n ≤ pyRound x := by
  have hf : n ≤ ⌊x⌋ := Int.le_floor.mpr h
  unfold pyRound
  split
  · exact hf
  · split
    · omega
    · split <;> omega

theorem pyRound2_ge_min (x : ℚ) (h : MIN_EASE_FACTOR ≤ x) :
    MIN_EASE_FACTOR ≤ pyRound2 x := by
  have h130 : ((130 : ℤ) : ℚ) ≤ x * 100 := by
    unfold MIN_EASE_FACTOR at h
    push_cast
    linarith
  have := pyRound_ge (x * 100) 130 h130
  have hc : (130 : ℚ) ≤ (pyRound (x * 100) : ℚ) := by exact_mod_cast this
  unfold pyRound2 MIN_EASE_FACTOR
  linarith

theorem sm2Update_ease_ge (score : ℤ) (reps : ℕ) (ease : ℚ) (iv : ℤ) :
    MIN_EASE_FACTOR ≤ (sm2Update score reps ease iv).2.1 := by
  unfold sm2Update
  split
  · exact le_max_left _ _
  · exact le_max_left _ _

theorem easeInv_recordReviewPure (t : Tracker) (ty ti : String) (sc d : ℤ)
    (h : EaseInv t) : EaseInv (recordReviewPure t ty ti sc d).1 := by
  obtain ⟨hc, he⟩ := h
  by_cases hty : ty = "card"
  · refine ⟨?_, ?_⟩
    · intro p hp
      simp only [recordReviewPure, trackerSection, hty, if_pos] at hp
      rcases mem_setKey hp with rfl | hp
      · exact pyRound2_ge_min _ (sm2Update_ease_ge _ _ _ _)
      · exact hc p hp
    · intro p hp
      simp only [recordReviewPure, trackerSection, hty, if_pos] at hp
      exact he p hp
  · refine ⟨?_, ?_⟩
    · intro p hp
      simp only [recordReviewPure, trackerSection, hty, if_neg, not_false_iff] at hp
      exact hc p hp
    · intro p hp
      simp only [recordReviewPure, trackerSection, hty, if_neg, not_false_iff] at hp
      rcases mem_setKey hp with rfl | hp
      · exact pyRound2_ge_min _ (sm2Update_ease_ge _ _ _ _)
      · exact he p hp

theorem easeInv_applyReviews (reviews : List (String × String × ℤ × ℤ)) :
    ∀ store : Option Tracker, EaseInv (loadTracker store) →
      EaseInv (loadTracker (applyReviews store reviews)) := by
  induction reviews with
  | nil => intro store h; exact h
  | cons r rs ih =>
    intro store h
    exact ih _ (easeInv_recordReviewPure _ _ _ _ _ h)

/-- C1: the SM-2 update never returns an ease factor below 1.3, for any
score, repetition count, ease factor and interval; consequently every ease
factor stored by `record_review` stays at least 1.3 under any sequence of
reviews starting from the initial (absent) tracker store. -/
theorem sm2_ease_never_below_min :
    (∀ (score : ℤ) (reps : ℕ) (ease : ℚ) (intervalDays : ℤ),
        MIN_EASE_FACTOR ≤ (sm2Update score reps ease intervalDays).2.1) ∧
    (∀ reviews : List (String × String × ℤ × ℤ),
        EaseInv (loadTracker (applyReviews none reviews))) := by
  refine ⟨sm2Update_ease_ge, fun reviews => ?_⟩
  refine easeInv_applyReviews reviews none ⟨?_, ?_⟩ <;>
    · intro p hp
      simp [loadTracker, emptyTracker] at hp

/-- C2: for every prior state and every score below 3, `_sm2_update`
resets repetitions to 0, forces the interval to 1, and only clamps the
ease factor to `max(1.3, ease)`. -/
theorem sm2_forgotten (score : ℤ) (reps : ℕ) (ease : ℚ) (iv : ℤ)
    (h : score < 3) :
    sm2Update score reps ease iv = (0, max MIN_EASE_FACTOR ease, 1) := by
  simp [sm2Update, h]

theorem sm2_forgotten_witness :
    (2 : ℤ) < 3 ∧ sm2Update 2 7 2 10 = (0, max MIN_EASE_FACTOR 2, 1) :=
  ⟨by decide, sm2_forgotten 2 7 2 10 (by decide)⟩


theorem loadTracker_some (t : Tracker) : loadTracker (some t) = t := rfl

theorem histBound_spec (h : List (ℤ × ℤ)) (x : ℤ × ℤ) (hle : h.length ≤ 50) :
    (if (h ++ [x]).length > 50
      then (h ++ [x]).drop ((h ++ [x]).length - 50) else h ++ [x])
    = if h.length = 50 then h.drop 1 ++ [x] else h ++ [x] := by
  by_cases hc : h.length = 50
  · have hl : (h ++ [x]).length = 51 := by simp [hc]
    rw [if_pos (by omega), hl, if_pos hc]
    have h1 : (51 : ℕ) - 50 = 1 := by norm_num
    rw [h1, List.drop_append_of_le_length (by omega)]
  · have hl : (h ++ [x]).length = h.length + 1 := by simp
    rw [if_neg (by omega), if_neg hc]

theorem recordReviewPure_spec (t : Tracker) (ty ti : String) (sc d : ℤ)
    (hcap : ((lookupKey (trackerSection t ty) ti).getD
        defaultItem).history.length ≤ 50) :
    lookupKey (trackerSection (recordReviewPure t ty ti sc d).1 ty) ti
      = some (recordReviewPure t ty ti sc d).2 ∧
    (recordReviewPure t ty ti sc d).2.lastReviewed = some d ∧
    (recordReviewPure t ty ti sc d).2.nextReview =
      some (d + (sm2Update sc
        ((lookupKey (trackerSection t ty) ti).getD defaultItem).repetitions
        ((lookupKey (trackerSection t ty) ti).getD defaultItem).easeFactor
        ((lookupKey (trackerSection t ty) ti).getD defaultItem).intervalDays).2.2) ∧
    (recordReviewPure t ty ti sc d).2.history =
      (if ((lookupKey (trackerSection t ty) ti).getD defaultItem).history.length = 50
       then ((lookupKey (trackerSection t ty) ti).getD defaultItem).history.drop 1
            ++ [(d, sc)]
       else ((lookupKey (trackerSection t ty) ti).getD defaultItem).history
            ++ [(d, sc)]) := by
  refine ⟨?_, ?_, ?_, ?_⟩
  · by_cases hty : ty = "card" <;>
      simp [recordReviewPure, trackerSection, hty, lookupKey_setKey_self]
  · by_cases hty : ty = "card" <;>
      simp [recordReviewPure, trackerSection, hty]
  · by_cases hty : ty = "card" <;>
      simp [recordReviewPure, trackerSection, hty]
  · have := histBound_spec
      ((lookupKey (trackerSection t ty) ti).getD defaultItem).history (d, sc) hcap
    by_cases hty : ty = "card" <;>
      · simp only [recordReviewPure, trackerSection, hty, if_pos, if_neg,
          not_false_iff, ite_true, ite_false] at this ⊢
        exact this

/-- C3: round-trip of `record_review` through storage.  After
`record_review(type, title, score)` on day `d`, `load_tracker()` returns an
item under that key whose `last_reviewed` is the call date, whose
`next_review` is the call date plus the freshly computed SM-2 interval in
days, and whose history grew by exactly one entry — staying at 50 with the
oldest entry dropped when it was already at the 50-entry cap. -/
theorem record_review_roundtrip (store : Option Tracker) (ty ti : String)
    (sc d : ℤ) (hsc : 0 ≤ sc ∧ sc ≤ 5)
    (hcap : ((lookupKey (trackerSection (loadTracker store) ty) ti).getD
        defaultItem).history.length ≤ 50) :
    ∃ it : TrackedItem,
      lookupKey (trackerSection (loadTracker (recordReview store ty ti sc d).1) ty) ti
        = some it ∧
      it.lastReviewed = some d ∧
      it.nextReview = some (d + (sm2Update sc
        ((lookupKey (trackerSection (loadTracker store) ty) ti).getD
          defaultItem).repetitions
        ((lookupKey (trackerSection (loadTracker store) ty) ti).getD
          defaultItem).easeFactor
        ((lookupKey (trackerSection (loadTracker store) ty) ti).getD
          defaultItem).intervalDays).2.2) ∧
      ((((lookupKey (trackerSection (loadTracker store) ty) ti).getD
           defaultItem).history.length < 50 ∧
        it.history.length = ((lookupKey (trackerSection (loadTracker store) ty)
           ti).getD defaultItem).history.length + 1) ∨
       (((lookupKey (trackerSection (loadTracker store) ty) ti).getD
           defaultItem).history.length = 50 ∧
        it.history.length = 50 ∧
        it.history = ((lookupKey (trackerSection (loadTracker store) ty) ti).getD
           defaultItem).history.drop 1 ++ [(d, sc)])) := by
  obtain ⟨h1, h2, h3, h4⟩ :=
    recordReviewPure_spec (loadTracker store) ty ti sc d hcap
  refine ⟨(recordReviewPure (loadTracker store) ty ti sc d).2, h1, h2, h3, ?_⟩
  by_cases hc : ((lookupKey (trackerSection (loadTracker store) ty) ti).getD
      defaultItem).history.length = 50
  · rw [if_pos hc] at h4
    refine Or.inr ⟨hc, ?_, h4⟩
    rw [h4]
    simp [hc]
  · rw [if_neg hc] at h4
    refine Or.inl ⟨lt_of_le_of_ne hcap hc, ?_⟩
    rw [h4]
    simp

theorem record_review_roundtrip_witness :
    ((0 : ℤ) ≤ 4 ∧ (4 : ℤ) ≤ 5) ∧
    ((lookupKey (trackerSection (loadTracker none) "card") "T").getD
        defaultItem).history.length ≤ 50 ∧
    ∃ it : TrackedItem,
      lookupKey (trackerSection
          (loadTracker (recordReview none "card" "T" 4 100).1) "card") "T"
        = some it ∧
      it.lastReviewed = some 100 ∧
      it.nextReview = some (100 + (sm2Update 4
        ((lookupKey (trackerSection (loadTracker none) "card") "T").getD
          defaultItem).repetitions
        ((lookupKey (trackerSection (loadTracker none) "card") "T").getD
          defaultItem).easeFactor
        ((lookupKey (trackerSection (loadTracker none) "card") "T").getD
          defaultItem).intervalDays).2.2) ∧
      ((((lookupKey (trackerSection (loadTracker none) "card") "T").getD
           defaultItem).history.length < 50 ∧
        it.history.length = ((lookupKey (trackerSection (loadTracker none) "card")
           "T").getD defaultItem).history.length + 1) ∨
       (((lookupKey (trackerSection (loadTracker none) "card") "T").getD
           defaultItem).history.length = 50 ∧
        it.history.length = 50 ∧
        it.history = ((lookupKey (trackerSection (loadTracker none) "card")
           "T").getD defaultItem).history.drop 1 ++ [(100, 4)])) :=
  ⟨by decide, by decide,
    record_review_roundtrip none "card" "T" 4 100 (by decide) (by decide)⟩

theorem mem_getDueItems (tracker : TrackerS) (today : String)
    (reviewable : List RItem) (e : DueEntry) :
    e ∈ getDueItems tracker today reviewable ↔
      e.item ∈ reviewable ∧
      ((lookupKey (trackerSectionS tracker e.item.rtype) e.item.title = none ∧
        e.priority = 0 ∧ e.neverReviewed = true ∧ e.easeFactor = none) ∨
       (∃ tr, lookupKey (trackerSectionS tracker e.item.rtype) e.item.title
           = some tr ∧
         strLeB (tr.nextReview.getD NEXT_REVIEW_SENTINEL) today = true ∧
         e.priority = 1 ∧ e.neverReviewed = false ∧
         e.easeFactor = some tr.easeFactor)) := by
  rw [show getDueItems tracker today reviewable
      = List.insertionSort dueLE (dueFilter tracker today reviewable) from rfl,
    (List.perm_insertionSort dueLE _).mem_iff]
  constructor
  · intro he
    obtain ⟨r, hr, hfr⟩ := List.mem_filterMap.mp he
    rcases hlk : lookupKey (trackerSectionS tracker r.rtype) r.title with _ | tr
    · rw [hlk] at hfr
      simp only [Option.some.injEq] at hfr
      subst hfr
      exact ⟨hr, Or.inl ⟨hlk, rfl, rfl, rfl⟩⟩
    · rw [hlk] at hfr
      dsimp only at hfr
      by_cases hc : strLeB (tr.nextReview.getD NEXT_REVIEW_SENTINEL) today = true
      · rw [if_pos hc] at hfr
        simp only [Option.some.injEq] at hfr
        subst hfr
        exact ⟨hr, Or.inr ⟨tr, hlk, hc, rfl, rfl, rfl⟩⟩
      · rw [if_neg hc] at hfr
        exact absurd hfr (by simp)
  · rintro ⟨hr, h | h⟩
    · obtain ⟨hlk, hp, hn, he⟩ := h
      refine List.mem_filterMap.mpr ⟨e.item, hr, ?_⟩
      rw [hlk]
      obtain ⟨ei, ep, en, ee⟩ := e
      simp only at hp hn he
      subst hp; subst hn; subst he
      rfl
    · obtain ⟨tr, hlk, hc, hp, hn, he⟩ := h
      refine List.mem_filterMap.mpr ⟨e.item, hr, ?_⟩
      rw [hlk]
      dsimp only
      rw [if_pos hc]
      obtain ⟨ei, ep, en, ee⟩ := e
      simp only at hp hn he
      subst hp; subst hn; subst he
      rfl

/-- C4: `get_due_items` includes a reviewable item with priority 0 when it
has no tracker record, includes it with priority 1 (carrying the record's
ease factor) when its `next_review` date string is lexicographically at
most today, and excludes it otherwise; the output is sorted ascending by
the tuple `(priority, ease_factor)`; and on one never-reviewed item, one
item due yesterday and one item due in 10 days it returns exactly the
first two, never-reviewed first. -/
theorem get_due_items_spec :
    (∀ (tracker : TrackerS) (today : String) (reviewable : List RItem)
        (e : DueEntry),
      e ∈ getDueItems tracker today reviewable ↔
        e.item ∈ reviewable ∧
        ((lookupKey (trackerSectionS tracker e.item.rtype) e.item.title = none ∧
          e.priority = 0 ∧ e.neverReviewed = true ∧ e.easeFactor = none) ∨
         (∃ tr, lookupKey (trackerSectionS tracker e.item.rtype) e.item.title
             = some tr ∧
           strLeB (tr.nextReview.getD NEXT_REVIEW_SENTINEL) today = true ∧
           e.priority = 1 ∧ e.neverReviewed = false ∧
           e.easeFactor = some tr.easeFactor))) ∧
    (∀ (tracker : TrackerS) (today : String) (reviewable : List RItem),
      List.Sorted dueLE (getDueItems tracker today reviewable)) ∧
    getDueItems
      ⟨[("B", ⟨some "2026-10-11", 2⟩), ("C", ⟨some "2026-10-22", 2⟩)], []⟩
      "2026-10-12"
      [⟨"card", "A"⟩, ⟨"card", "B"⟩, ⟨"card", "C"⟩]
    = [⟨⟨"card", "A"⟩, 0, true, none⟩, ⟨⟨"card", "B"⟩, 1, false, some 2⟩] := by
  refine ⟨mem_getDueItems, fun tracker today reviewable => ?_, by decide⟩
  exact List.sorted_insertionSort dueLE _

theorem sm2_ease_never_below_min_witness :
    MIN_EASE_FACTOR ≤ (sm2Update 5 0 (5/2) 0).2.1 :=
  sm2_ease_never_below_min.1 5 0 (5/2) 0

theorem get_due_items_spec_witness :
    (⟨⟨"card", "A"⟩, 0, true, none⟩ : DueEntry) ∈
      getDueItems
        ⟨[("B", ⟨some "2026-10-11", 2⟩), ("C", ⟨some "2026-10-22", 2⟩)], []⟩
        "2026-10-12"
        [⟨"card", "A"⟩, ⟨"card", "B"⟩, ⟨"card", "C"⟩] :=
  (get_due_items_spec.1 _ _ _ _).mpr ⟨by decide, Or.inl ⟨by decide, rfl, rfl, rfl⟩⟩

theorem runSteps_spec (σ : List QuizStep) :
    ∀ (qs : List QuizQuestion) (k : ℕ) (sc0 : List ℤ) (an0 : List String),
      k + σ.length ≤ qs.length →
      runSteps ⟨qs, k, sc0, an0, true⟩ σ =
        (⟨qs, k + σ.length, sc0 ++ σ.map stepScore,
          an0 ++ σ.map stepText, true⟩,
         (σ.zip (qs.drop k)).filterMap recCallOf) := by
  induction σ with
  | nil =>
    intro qs k sc0 an0 h
    simp [runSteps]
  | cons st rest ih =>
    intro qs k sc0 an0 h
    have hk : k < qs.length := by
      simp only [List.length_cons] at h
      omega
    have hq : (⟨qs, k, sc0, an0, true⟩ : QuizSession).currentQuestion
        = some qs[k] := by
      simp [QuizSession.currentQuestion, List.getElem?_eq_getElem hk]
    have hnc : (⟨qs, k, sc0, an0, true⟩ : QuizSession).isComplete = false := by
      simp [QuizSession.isComplete]
      omega
    have hdrop : qs.drop k = qs[k] :: qs.drop (k + 1) :=
      List.drop_eq_getElem_cons hk
    have hrec : k + 1 + rest.length ≤ qs.length := by
      simp only [List.length_cons] at h
      omega
    cases st with
    | answer sc tx =>
      simp only [runSteps, applyStep, answerStep, hnc, hq, Bool.not_false,
        Bool.and_true, if_pos rfl, ite_true]
      rw [ih qs (k + 1) (sc0 ++ [sc]) (an0 ++ [tx]) hrec]
      rw [hdrop]
      simp only [List.zip_cons_cons, List.filterMap_cons, List.map_cons,
        stepScore, stepText, List.length_cons, recCallOf]
      by_cases hsc : 0 ≤ sc
      · simp [hsc, List.append_assoc]
        omega
      · simp [hsc, List.append_assoc]
        omega
    | skip =>
      simp only [runSteps, applyStep, skipStep, hq, ite_true]
      rw [ih qs (k + 1) (sc0 ++ [-1]) (an0 ++ ["[skipped]"]) hrec]
      rw [hdrop]
      simp only [List.zip_cons_cons, List.filterMap_cons, List.map_cons,
        stepScore, stepText, List.length_cons, recCallOf]
      simp [List.append_assoc]
      omega

theorem validCount (σ : List QuizStep) (hok : ∀ st ∈ σ, stepScoreOk st) :
    ((σ.map stepScore).filter (fun x => 0 ≤ x)).length
      = σ.countP (fun st => match st with
          | .answer _ _ => true | .skip => false) := by
  induction σ with
  | nil => rfl
  | cons st rest ih =>
    have hok' : ∀ s ∈ rest, stepScoreOk s := fun s hs => hok s (List.mem_cons_of_mem _ hs)
    cases st with
    | answer sc tx =>
      have hsc : 0 ≤ sc := hok _ (List.mem_cons_self _ _)
      simp [stepScore, List.countP_cons, hsc, ih hok']
    | skip =>
      have : ¬ (0 ≤ (-1 : ℤ)) := by norm_num
      simp [stepScore, List.countP_cons, this, ih hok']

/-- C5: from a fresh session with `n` questions, every answer or skip
appends one score and one raw answer and advances the cursor by one, so the
session is complete after exactly `n` steps; a skip records the `-1`
sentinel and `"[skipped]"` and performs no `record_review` call; the
summary's maximum score is 5 times the number of non-skipped answers; and
once complete the session is destroyed after the summary is emitted. -/
theorem quiz_session_spec (qs : List QuizQuestion) (σ : List QuizStep)
    (hlen : σ.length ≤ qs.length) (hok : ∀ st ∈ σ, stepScoreOk st) :
    (runSteps (startSession qs) σ).1.currentIndex = σ.length ∧
    (runSteps (startSession qs) σ).1.scores = σ.map stepScore ∧
    (runSteps (startSession qs) σ).1.answers = σ.map stepText ∧
    ((runSteps (startSession qs) σ).1.isComplete = true ↔
       σ.length = qs.length) ∧
    (runSteps (startSession qs) σ).2 = (σ.zip qs).filterMap recCallOf ∧
    (∀ c ∈ (runSteps (startSession qs) σ).2, 0 ≤ c.2.2) ∧
    maxTotal (runSteps (startSession qs) σ).1 =
      (σ.countP fun st => match st with
        | .answer _ _ => true | .skip => false) * 5 ∧
    (σ.length = qs.length →
      sessionAfterEmit (runSteps (startSession qs) σ).1 = none) := by
  have hrun := runSteps_spec σ qs 0 [] [] (by omega)
  rw [show startSession qs = ⟨qs, 0, [], [], true⟩ from rfl, hrun]
  refine ⟨by simp, by simp, by simp, ?_, by simp, ?_, ?_, ?_⟩
  · simp [QuizSession.isComplete]
    omega
  · intro c hc
    simp only at hc
    obtain ⟨⟨st, q⟩, hmem, hcall⟩ := List.mem_filterMap.mp hc
    cases st with
    | answer sc tx =>
      simp only [recCallOf] at hcall
      by_cases hsc : 0 ≤ sc
      · rw [if_pos hsc] at hcall
        cases hcall
        exact hsc
      · rw [if_neg hsc] at hcall
        cases hcall
    | skip => simp [recCallOf] at hcall
  · simp only [maxTotal, validScores, List.nil_append]
    rw [validCount σ hok]
  · intro hfull
    simp [sessionAfterEmit, QuizSession.isComplete]
    omega

theorem quiz_session_spec_witness :
    wSteps3.length ≤ wQuiz3.length ∧
    (∀ st ∈ wSteps3, stepScoreOk st) ∧
    (runSteps (startSession wQuiz3) wSteps3).1.currentIndex = 3 ∧
    (runSteps (startSession wQuiz3) wSteps3).1.isComplete = true ∧
    maxTotal (runSteps (startSession wQuiz3) wSteps3).1 = 10 ∧
    sessionAfterEmit (runSteps (startSession wQuiz3) wSteps3).1 = none := by
  have hok : ∀ st ∈ wSteps3, stepScoreOk st := by
    intro st hst
    simp only [wSteps3, List.mem_cons, List.not_mem_nil, or_false] at hst
    rcases hst with rfl | rfl | rfl <;> simp [stepScoreOk]
  have h := quiz_session_spec wQuiz3 wSteps3 (by decide) hok
  exact ⟨by decide, hok, h.1, h.2.2.2.1.mpr (by decide),
    h.2.2.2.2.2.2.1.trans (by decide), h.2.2.2.2.2.2.2 (by decide)⟩

/-- C8: `evaluate_answer` always returns a score in `[0, 5]`; on any LLM or
parsing failure it returns the sentinel score 0 with the evaluation-failed
feedback; and the quiz-answer handler still performs a real `record_review`
call with that score — an evaluation failure is never treated as skipped. -/
theorem evaluate_answer_spec (q : QuizQuestion) (resp : Option EvalResponse) :
    (0 ≤ (evaluateAnswer q resp).score ∧ (evaluateAnswer q resp).score ≤ 5) ∧
    (resp = none → (evaluateAnswer q resp).score = 0 ∧
      (evaluateAnswer q resp).feedback = "Error al evaluar la respuesta." ∧
      (evaluateAnswer q resp).correctAnswer = q.expectedAnswer) ∧
    (∀ (s : QuizSession) (q0 : QuizQuestion) (text : String),
      s.active = true → s.currentQuestion = some q0 → s.isComplete = false →
      (answerStep s (evaluateAnswer q resp).score text).2
        = [(q0.sourceType, q0.sourceTitle, (evaluateAnswer q resp).score)]) := by
  refine ⟨?_, ?_, ?_⟩
  · cases resp with
    | none => simp [evaluateAnswer]
    | some r =>
      refine ⟨?_, ?_⟩
      · simp only [evaluateAnswer]
        exact le_min (by norm_num) (le_max_left 0 r.score)
      · simp only [evaluateAnswer]
        exact min_le_left 5 _
  · intro h
    subst h
    exact ⟨rfl, rfl, rfl⟩
  · intro s q0 text hact hq hnc
    have hge : 0 ≤ (evaluateAnswer q resp).score := by
      cases resp with
      | none => simp [evaluateAnswer]
      | some r =>
        simp only [evaluateAnswer]
        exact le_min (by norm_num) (le_max_left 0 r.score)
    simp [answerStep, hact, hnc, hq, hge]

theorem evaluate_answer_spec_witness :
    (0 ≤ (evaluateAnswer ⟨"q1", "T", "card", "recall", "", "a1"⟩ none).score ∧
      (evaluateAnswer ⟨"q1", "T", "card", "recall", "", "a1"⟩ none).score ≤ 5) ∧
    (evaluateAnswer ⟨"q1", "T", "card", "recall", "", "a1"⟩ none).score = 0 ∧
    (answerStep (startSession wQuiz3)
        (evaluateAnswer ⟨"q1", "T", "card", "recall", "", "a1"⟩ none).score
        "no se").2
      = [("card", "T",
          (evaluateAnswer ⟨"q1", "T", "card", "recall", "", "a1"⟩ none).score)] := by
  have h := evaluate_answer_spec ⟨"q1", "T", "card", "recall", "", "a1"⟩ none
  refine ⟨h.1, (h.2.1 rfl).1, ?_⟩
  have := h.2.2 (startSession wQuiz3) ⟨"q1", "T", "card", "recall", "", "a1"⟩
    "no se" rfl (by decide) (by decide)
  simpa using this

theorem bestFold_spec (q : List Char) (titles : List (List Char)) :
    ∀ b0 : ℚ × Option (List Char),
      (∀ t ∈ titles, simRatio q (toLowerCh t) ≤
        (titles.foldl (bestStep q) b0).1) ∧
      b0.1 ≤ (titles.foldl (bestStep q) b0).1 ∧
      ((titles.foldl (bestStep q) b0) = b0 ∨
       (titles.foldl (bestStep q) b0).2.isSome = true) := by
  induction titles with
  | nil =>
    intro b0
    exact ⟨by simp, le_refl _, Or.inl rfl⟩
  | cons t ts ih =>
    intro b0
    simp only [List.foldl_cons]
    by_cases h : b0.1 < simRatio q (toLowerCh t)
    · rw [show bestStep q b0 t = (simRatio q (toLowerCh t), some t) from by
        simp [bestStep, h]]
      obtain ⟨hcov, hmono, hkind⟩ := ih (simRatio q (toLowerCh t), some t)
      refine ⟨?_, le_trans (le_of_lt h) hmono, ?_⟩
      · intro u hu
        rcases List.mem_cons.mp hu with rfl | hu
        · exact hmono
        · exact hcov u hu
      · rcases hkind with heq | hs
        · right
          rw [heq]
          rfl
        · right
          exact hs
    · rw [show bestStep q b0 t = b0 from by simp [bestStep, h]]
      obtain ⟨hcov, hmono, hkind⟩ := ih b0
      refine ⟨?_, hmono, hkind⟩
      intro u hu
      rcases List.mem_cons.mp hu with rfl | hu
      · exact le_trans (not_lt.mp h) hmono
      · exact hcov u hu

set_option maxRecDepth 16384 in
theorem findItem_concrete_match :
    findItemByTitle "the systemic ctp".toList ["The Systemic CTO".toList]
      = (some "The Systemic CTO".toList, []) := by
  have hm : matchTotal (stripCh (toLowerCh "the systemic ctp".toList))
      (toLowerCh "The Systemic CTO".toList) = 15 := by decide
  have hr : simRatio (stripCh (toLowerCh "the systemic ctp".toList))
      (toLowerCh "The Systemic CTO".toList) = 15/16 := by
    unfold simRatio
    rw [if_neg (by decide), hm,
      show ((stripCh (toLowerCh "the systemic ctp".toList)).length : ℚ) = 16 from by
        rw [show (stripCh (toLowerCh "the systemic ctp".toList)).length = 16 from by decide]
        norm_num,
      show ((toLowerCh "The Systemic CTO".toList).length : ℚ) = 16 from by
        rw [show (toLowerCh "The Systemic CTO".toList).length = 16 from by decide]
        norm_num]
    norm_num
  unfold findItemByTitle
  dsimp only
  rw [show (["The Systemic CTO".toList].find? (fun t =>
      toLowerCh t == stripCh (toLowerCh "the systemic ctp".toList))) = none from by
        decide]
  rw [show (["The Systemic CTO".toList].find? (fun t =>
      decide (List.IsInfix (stripCh (toLowerCh "the systemic ctp".toList)) (toLowerCh t)) ||
      decide (List.IsInfix (toLowerCh t) (stripCh (toLowerCh "the systemic ctp".toList)))))
      = none from by decide]
  rw [List.foldl_cons, List.foldl_nil]
  rw [show bestStep (stripCh (toLowerCh "the systemic ctp".toList))
      ((0 : ℚ), (none : Option (List Char))) "The Systemic CTO".toList
      = (15/16, some "The Systemic CTO".toList) from by
    unfold bestStep
    rw [hr]
    norm_num]
  rw [if_pos (by norm_num : (3 : ℚ)/5 < ((15:ℚ)/16, some "The Systemic CTO".toList).1)]

set_option maxRecDepth 16384 in
/-- C9 counterexample: with query `"abcxy"` against the single title
`"abczw"` the SequenceMatcher ratio is exactly 0.6 and no substring
relation holds, yet `_find_item_by_title` returns no item (the code
requires the ratio to be strictly greater than 0.6, not at least 0.6). -/
theorem find_item_ratio_boundary_counterexample :
    simRatio (stripCh (toLowerCh "abcxy".toList)) (toLowerCh "abczw".toList)
      = 3/5 ∧
    ((3 : ℚ)/5 ≥ 3/5) ∧
    ¬ List.IsInfix (stripCh (toLowerCh "abcxy".toList))
        (toLowerCh "abczw".toList) ∧
    ¬ List.IsInfix (toLowerCh "abczw".toList)
        (stripCh (toLowerCh "abcxy".toList)) ∧
    findItemByTitle "abcxy".toList ["abczw".toList] = (none, []) := by
  have hm : matchTotal (stripCh (toLowerCh "abcxy".toList))
      (toLowerCh "abczw".toList) = 3 := by decide
  have hr : simRatio (stripCh (toLowerCh "abcxy".toList))
      (toLowerCh "abczw".toList) = 3/5 := by
    unfold simRatio
    rw [if_neg (by decide), hm,
      show ((stripCh (toLowerCh "abcxy".toList)).length : ℚ) = 5 from by
        rw [show (stripCh (toLowerCh "abcxy".toList)).length = 5 from by decide]
        norm_num,
      show ((toLowerCh "abczw".toList).length : ℚ) = 5 from by
        rw [show (toLowerCh "abczw".toList).length = 5 from by decide]
        norm_num]
    norm_num
  refine ⟨hr, le_refl _, by decide, by decide, ?_⟩
  unfold findItemByTitle
  dsimp only
  rw [show (["abczw".toList].find? (fun t =>
      toLowerCh t == stripCh (toLowerCh "abcxy".toList))) = none from by decide]
  rw [show (["abczw".toList].find? (fun t =>
      decide (List.IsInfix (stripCh (toLowerCh "abcxy".toList)) (toLowerCh t)) ||
      decide (List.IsInfix (toLowerCh t) (stripCh (toLowerCh "abcxy".toList)))))
      = none from by decide]
  rw [List.foldl_cons, List.foldl_nil]
  rw [show bestStep (stripCh (toLowerCh "abcxy".toList))
      ((0 : ℚ), (none : Option (List Char))) "abczw".toList
      = (3/5, some "abczw".toList) from by
    unfold bestStep
    rw [hr]
    norm_num]
  rw [if_neg (by norm_num : ¬ ((3 : ℚ)/5 < ((3:ℚ)/5, some "abczw".toList).1))]
  rw [show wordSuggestions (stripCh (toLowerCh "abcxy".toList)) ["abczw".toList]
      = [] from by decide]

theorem findItemByTitle_shape (query : List Char) (titles : List (List Char)) :
    (∃ t, findItemByTitle query titles = (some t, [])) ∨
    findItemByTitle query titles
      = (none, wordSuggestions (stripCh (toLowerCh query)) titles) := by
  unfold findItemByTitle
  dsimp only
  rcases h1 : List.find? (fun t => toLowerCh t == stripCh (toLowerCh query)) titles
    with _ | t1
  · rcases h2 : List.find? (fun t =>
        decide (List.IsInfix (stripCh (toLowerCh query)) (toLowerCh t)) ||
        decide (List.IsInfix (toLowerCh t) (stripCh (toLowerCh query)))) titles
      with _ | t2
    · by_cases hc : 3/5 < (titles.foldl (bestStep (stripCh (toLowerCh query)))
          ((0 : ℚ), (none : Option (List Char)))).1
      · rw [if_pos hc]
        rcases h3 : (titles.foldl (bestStep (stripCh (toLowerCh query)))
            ((0 : ℚ), (none : Option (List Char)))).2 with _ | t3
        · exact Or.inr rfl
        · exact Or.inl ⟨t3, rfl⟩
      · rw [if_neg hc]
        exact Or.inr rfl
    · exact Or.inl ⟨t2, rfl⟩
  · exact Or.inl ⟨t1, rfl⟩

theorem findItemByTitle_substring_isSome (query : List Char)
    (titles : List (List Char)) (t : List Char) (ht : t ∈ titles)
    (hsub : List.IsInfix (stripCh (toLowerCh query)) (toLowerCh t) ∨
            List.IsInfix (toLowerCh t) (stripCh (toLowerCh query))) :
    (findItemByTitle query titles).1.isSome = true := by
  unfold findItemByTitle
  dsimp only
  rcases h1 : List.find? (fun t => toLowerCh t == stripCh (toLowerCh query)) titles
    with _ | t1
  · rcases h2 : List.find? (fun t =>
        decide (List.IsInfix (stripCh (toLowerCh query)) (toLowerCh t)) ||
        decide (List.IsInfix (toLowerCh t) (stripCh (toLowerCh query)))) titles
      with _ | t2
    · exfalso
      have := List.find?_eq_none.mp h2 t ht
      simp only [Bool.or_eq_true, decide_eq_true_eq] at this
      exact this (by tauto)
    · rfl
  · rfl

theorem findItemByTitle_ratio_isSome (query : List Char)
    (titles : List (List Char)) (t : List Char) (ht : t ∈ titles)
    (hr : 3/5 < simRatio (stripCh (toLowerCh query)) (toLowerCh t)) :
    (findItemByTitle query titles).1.isSome = true := by
  unfold findItemByTitle
  dsimp only
  rcases h1 : List.find? (fun t => toLowerCh t == stripCh (toLowerCh query)) titles
    with _ | t1
  · rcases h2 : List.find? (fun t =>
        decide (List.IsInfix (stripCh (toLowerCh query)) (toLowerCh t)) ||
        decide (List.IsInfix (toLowerCh t) (stripCh (toLowerCh query)))) titles
      with _ | t2
    · obtain ⟨hcov, hmono, hkind⟩ :=
        bestFold_spec (stripCh (toLowerCh query)) titles
          ((0 : ℚ), (none : Option (List Char)))
      have hgt : 3/5 < (titles.foldl (bestStep (stripCh (toLowerCh query)))
          ((0 : ℚ), (none : Option (List Char)))).1 :=
        lt_of_lt_of_le hr (hcov t ht)
      rw [if_pos hgt]
      rcases hkind with heq | hs
      · exfalso
        rw [heq] at hgt
        norm_num at hgt
      · rcases h3 : (titles.foldl (bestStep (stripCh (toLowerCh query)))
            ((0 : ℚ), (none : Option (List Char)))).2 with _ | t3
        · rw [h3] at hs
          simp at hs
        · rfl
    · rfl
  · rfl

/-- C9 (amended): `_find_item_by_title` resolves a title by
case-insensitive substring match first, then by SequenceMatcher similarity
ratio strictly greater than 0.6 (in particular a 93.75%-similar misspelling
of an existing title returns that title directly with an empty suggestion
list), and only for a query matching neither way returns no item together
with a word-overlap-based (possibly empty) suggestion list, never raising
an exception (the model is a total function). -/
theorem find_item_by_title_amended :
    (∀ (query : List Char) (titles : List (List Char)),
      (findItemByTitle query titles).1.isSome = true →
      (findItemByTitle query titles).2 = []) ∧
    (∀ (query : List Char) (titles : List (List Char)) (t : List Char),
      t ∈ titles →
      (List.IsInfix (stripCh (toLowerCh query)) (toLowerCh t) ∨
       List.IsInfix (toLowerCh t) (stripCh (toLowerCh query))) →
      (findItemByTitle query titles).1.isSome = true) ∧
    (∀ (query : List Char) (titles : List (List Char)) (t : List Char),
      t ∈ titles →
      3/5 < simRatio (stripCh (toLowerCh query)) (toLowerCh t) →
      (findItemByTitle query titles).1.isSome = true) ∧
    (∀ (query : List Char) (titles : List (List Char)),
      (findItemByTitle query titles).1 = none →
      (findItemByTitle query titles).2
        = wordSuggestions (stripCh (toLowerCh query)) titles) ∧
    findItemByTitle "the systemic ctp".toList ["The Systemic CTO".toList]
      = (some "The Systemic CTO".toList, []) := by
  refine ⟨?_, findItemByTitle_substring_isSome, findItemByTitle_ratio_isSome,
    ?_, findItem_concrete_match⟩
  · intro q ts hs
    rcases findItemByTitle_shape q ts with ⟨t, ht⟩ | h
    · rw [ht]
    · rw [h] at hs
      simp at hs
  · intro q ts hn
    rcases findItemByTitle_shape q ts with ⟨t, ht⟩ | h
    · rw [ht] at hn
      simp at hn
    · rw [h]

theorem find_item_by_title_amended_witness :
    "The Systemic CTO".toList ∈ ["The Systemic CTO".toList] ∧
    List.IsInfix (stripCh (toLowerCh "Systemic".toList))
      (toLowerCh "The Systemic CTO".toList) ∧
    (findItemByTitle "Systemic".toList
      ["The Systemic CTO".toList]).1.isSome = true :=
  ⟨by decide, by decide,
    find_item_by_title_amended.2.1 "Systemic".toList
      ["The Systemic CTO".toList] "The Systemic CTO".toList
      (by decide) (Or.inl (by decide))⟩

theorem splitParasAux_no_nl (l : List Char) (h : ∀ c ∈ l, c ≠ '\n') :
    ∀ cur, splitParasAux cur l = [cur.reverse ++ l] := by
  induction l with
  | nil => intro cur; simp [splitParasAux]
  | cons c rest ih =>
    intro cur
    have hc : c ≠ '\n' := h c (List.mem_cons_self _ _)
    have hstep : splitParasAux cur (c :: rest) = splitParasAux (c :: cur) rest := by
      rw [splitParasAux.eq_def]
      split
      · simp_all
      · rename_i heq
        rw [List.cons.injEq] at heq
        exact absurd heq.1 hc
      · rename_i heq
        rw [List.cons.injEq] at heq
        rw [heq.1, heq.2]
    rw [hstep, ih (fun x hx => h x (List.mem_cons_of_mem _ hx))]
    simp

theorem splitLinesAux_no_nl (l : List Char) (h : ∀ c ∈ l, c ≠ '\n') :
    ∀ cur, splitLinesAux cur l = [cur.reverse ++ l] := by
  induction l with
  | nil => intro cur; simp [splitLinesAux]
  | cons c rest ih =>
    intro cur
    have hc : c ≠ '\n' := h c (List.mem_cons_self _ _)
    rw [show splitLinesAux cur (c :: rest) = splitLinesAux (c :: cur) rest from by
      simp [splitLinesAux, hc]]
    rw [ih (fun x hx => h x (List.mem_cons_of_mem _ hx))]
    simp

theorem stripCh_length_le (l : List Char) : (stripCh l).length ≤ l.length := by
  unfold stripCh
  simp only [List.length_reverse]
  calc ((l.dropWhile Char.isWhitespace).reverse.dropWhile Char.isWhitespace).length
      ≤ (l.dropWhile Char.isWhitespace).reverse.length :=
        (List.dropWhile_sublist Char.isWhitespace).length_le
    _ = (l.dropWhile Char.isWhitespace).length := List.length_reverse _
    _ ≤ l.length := (List.dropWhile_sublist Char.isWhitespace).length_le

theorem dropWhile_eq_self_of_all (p : Char → Bool) (l : List Char)
    (h : ∀ c ∈ l, p c = false) : l.dropWhile p = l := by
  cases l with
  | nil => rfl
  | cons c rest =>
    rw [List.dropWhile_cons, h c (List.mem_cons_self _ _)]
    simp

theorem stripCh_no_ws (l : List Char)
    (h : ∀ c ∈ l, c.isWhitespace = false) : stripCh l = l := by
  unfold stripCh
  rw [dropWhile_eq_self_of_all _ l h,
    dropWhile_eq_self_of_all _ l.reverse (fun c hc => h c (List.mem_reverse.mp hc)),
    List.reverse_reverse]

theorem stripCh_append_nlnl (l : List Char) :
    stripCh (l ++ ['\n', '\n']) = stripCh l := by
  unfold stripCh
  rw [List.dropWhile_append]
  by_cases he : (l.dropWhile Char.isWhitespace).isEmpty
  · rw [if_pos he]
    rw [List.isEmpty_iff] at he
    rw [he]
    decide
  · rw [if_neg he]
    rw [List.reverse_append]
    show (List.dropWhile Char.isWhitespace
      ('\n' :: '\n' :: (l.dropWhile Char.isWhitespace).reverse)).reverse = _
    rw [List.dropWhile_cons, List.dropWhile_cons]
    simp [Char.isWhitespace]

theorem packAux_big_buf (rest : List (List Char)) (buf : List Char)
    (h : MAX_CHUNK_CHARS < (stripCh buf).length) :
    stripCh buf ∈ packAux buf rest := by
  cases rest with
  | nil =>
    have hne : (stripCh buf).isEmpty = false := by
      cases hsb : stripCh buf with
      | nil =>
        rw [hsb] at h
        unfold MAX_CHUNK_CHARS at h
        simp at h
      | cons a l => rfl
    simp [packAux, hne]
  | cons p ps =>
    have hbuf_ne : buf ≠ [] := by
      intro he
      rw [he] at h
      simp [stripCh] at h
    have hlen : MAX_CHUNK_CHARS < buf.length + p.length + 2 := by
      have := stripCh_length_le buf
      omega
    simp only [packAux, if_pos (And.intro hbuf_ne hlen)]
    exact List.mem_cons_self _ _

theorem packAux_oversized_para (p : List Char)
    (hbig : MAX_CHUNK_CHARS < (stripCh p).length) :
    ∀ (paras : List (List Char)), p ∈ paras →
      ∀ buf, stripCh p ∈ packAux buf paras := by
  intro paras
  induction paras with
  | nil => intro hp; cases hp
  | cons q rest ih =>
    intro hp buf
    rcases List.mem_cons.mp hp with rfl | hp'
    · by_cases hcond : buf ≠ [] ∧ MAX_CHUNK_CHARS < buf.length + p.length + 2
      · simp only [packAux, if_pos hcond]
        refine List.mem_cons_of_mem _ ?_
        have hb : MAX_CHUNK_CHARS < (stripCh (p ++ ['\n', '\n'])).length := by
          rw [stripCh_append_nlnl]
          exact hbig
        have := packAux_big_buf rest _ hb
        rw [stripCh_append_nlnl] at this
        exact this
      · by_cases hbe : buf = []
        · subst hbe
          simp only [packAux, if_neg hcond]
          have hb : MAX_CHUNK_CHARS <
              (stripCh (([] : List Char) ++ p ++ ['\n', '\n'])).length := by
            rw [List.nil_append, stripCh_append_nlnl]
            exact hbig
          have := packAux_big_buf rest _ hb
          rw [List.nil_append, stripCh_append_nlnl] at this
          rw [List.nil_append]
          exact this
        · exfalso
          have hle := stripCh_length_le p
          push_neg at hcond
          have := hcond hbe
          omega
    · by_cases hcond : buf ≠ [] ∧ MAX_CHUNK_CHARS < buf.length + q.length + 2
      · simp only [packAux, if_pos hcond]
        exact List.mem_cons_of_mem _ (ih hp' _)
      · simp only [packAux, if_neg hcond]
        exact ih hp' _

theorem packAux_le_cap (paras : List (List Char))
    (hall : ∀ p ∈ paras, p.length ≤ MAX_CHUNK_CHARS) :
    ∀ buf, (stripCh buf).length ≤ MAX_CHUNK_CHARS →
      ∀ c ∈ packAux buf paras, c.length ≤ MAX_CHUNK_CHARS := by
  induction paras with
  | nil =>
    intro buf hbuf c hc
    simp only [packAux] at hc
    rcases hhe : (stripCh buf).isEmpty with _ | _ <;> rw [hhe] at hc
    · simp at hc
      rw [hc]
      exact hbuf
    · simp at hc
  | cons p rest ih =>
    intro buf hbuf c hc
    have hp : p.length ≤ MAX_CHUNK_CHARS := hall p (List.mem_cons_self _ _)
    have hrest : ∀ q ∈ rest, q.length ≤ MAX_CHUNK_CHARS :=
      fun q hq => hall q (List.mem_cons_of_mem _ hq)
    by_cases hcond : buf ≠ [] ∧ MAX_CHUNK_CHARS < buf.length + p.length + 2
    · simp only [packAux, if_pos hcond] at hc
      rcases List.mem_cons.mp hc with rfl | hc'
      · exact hbuf
      · refine ih hrest (p ++ ['\n', '\n']) ?_ c hc'
        rw [stripCh_append_nlnl]
        exact le_trans (stripCh_length_le p) hp
    · simp only [packAux, if_neg hcond] at hc
      refine ih hrest (buf ++ p ++ ['\n', '\n']) ?_ c hc
      by_cases hbe : buf = []
      · subst hbe
        rw [List.nil_append, stripCh_append_nlnl]
        exact le_trans (stripCh_length_le p) hp
      · push_neg at hcond
        have hsum := hcond hbe
        have h1 := stripCh_length_le (buf ++ p ++ ['\n', '\n'])
        simp only [List.length_append, List.length_cons, List.length_nil] at h1
        omega

theorem chunkBody_oversized_para (body p : List Char)
    (hbody : MAX_CHUNK_CHARS < body.length) (hp : p ∈ splitParas body)
    (hbig : MAX_CHUNK_CHARS < (stripCh p).length) :
    stripCh p ∈ chunkBody body := by
  unfold chunkBody
  rw [if_neg (not_le.mpr hbody)]
  exact packAux_oversized_para p hbig (splitParas body) hp []

theorem chunkBody_cap (body : List Char)
    (hall : ∀ p ∈ splitParas body, p.length ≤ MAX_CHUNK_CHARS) :
    ∀ c ∈ chunkBody body, c.length ≤ MAX_CHUNK_CHARS := by
  intro c hc
  unfold chunkBody at hc
  by_cases hlen : body.length ≤ MAX_CHUNK_CHARS
  · rw [if_pos hlen] at hc
    simp at hc
    rw [hc]
    exact hlen
  · rw [if_neg hlen] at hc
    refine packAux_le_cap (splitParas body) hall [] ?_ c hc
    simp [stripCh]

theorem takeWhile_hash_replicate_a (n : ℕ) :
    (List.replicate n 'a').takeWhile (fun c => c = '#') = [] := by
  cases n with
  | zero => rfl
  | succ m =>
    rw [List.replicate_succ, List.takeWhile_cons]
    simp

theorem replicate_a_no_ws (n : ℕ) :
    ∀ c ∈ List.replicate n 'a', c.isWhitespace = false := by
  intro c hc
  rw [List.eq_of_mem_replicate hc]
  decide

theorem replicate_a_no_nl (n : ℕ) : ∀ c ∈ List.replicate n 'a', c ≠ '\n' := by
  intro c hc
  rw [List.eq_of_mem_replicate hc]
  decide

theorem chunkFile_big_example :
    ∃ c ∈ chunkFile "x".toList (List.replicate 2001 'a'),
      MAX_CHUNK_CHARS < c.2.length := by
  have hsf : stripFrontmatter (List.replicate 2001 'a')
      = List.replicate 2001 'a' := by
    unfold stripFrontmatter
    rw [List.take_replicate]
    rw [if_neg (by decide)]
  have hsl : splitLines (List.replicate 2001 'a')
      = [List.replicate 2001 'a'] := by
    unfold splitLines
    rw [splitLinesAux_no_nl _ (replicate_a_no_nl 2001)]
    rw [List.reverse_nil, List.nil_append]
  have hht : headingTitle (List.replicate 2001 'a') = none := by
    unfold headingTitle
    dsimp only
    rw [takeWhile_hash_replicate_a]
    rw [if_neg (by simp)]
  have hstrip : stripCh (List.replicate 2001 'a') = List.replicate 2001 'a' :=
    stripCh_no_ws _ (replicate_a_no_ws 2001)
  have hjoin : ∀ l : List Char, joinLines [l] = l := by
    intro l
    simp [joinLines, List.intercalate]
  have hsec : splitSectionsAux "x".toList [] (splitLines (stripFrontmatter
      (List.replicate 2001 'a'))) = [("x".toList, List.replicate 2001 'a')] := by
    rw [hsf, hsl]
    rw [splitSectionsAux.eq_def]
    dsimp only
    rw [hht]
    dsimp only
    rw [splitSectionsAux.eq_def]
    dsimp only
    rw [show ([] : List (List Char)) ++ [List.replicate 2001 'a']
        = [List.replicate 2001 'a'] from List.nil_append _]
    rw [hjoin (List.replicate 2001 'a'), hstrip]
    rw [if_neg (by decide)]
  have hpara : List.replicate 2001 'a' ∈ splitParas (List.replicate 2001 'a') := by
    unfold splitParas
    rw [splitParasAux_no_nl _ (replicate_a_no_nl 2001)]
    rw [List.reverse_nil, List.nil_append]
    exact List.mem_singleton_self _
  have hbig : MAX_CHUNK_CHARS < (stripCh (List.replicate 2001 'a')).length := by
    rw [hstrip, List.length_replicate]
    decide
  have hchunk : List.replicate 2001 'a' ∈ chunkBody (List.replicate 2001 'a') := by
    have := chunkBody_oversized_para (List.replicate 2001 'a')
      (List.replicate 2001 'a') (by rw [List.length_replicate]; decide) hpara hbig
    rw [hstrip] at this
    exact this
  refine ⟨("x".toList, List.replicate 2001 'a'), ?_, ?_⟩
  · unfold chunkFile
    rw [hsec]
    simp only [List.flatMap_cons, List.flatMap_nil, List.append_nil]
    exact List.mem_map.mpr ⟨List.replicate 2001 'a', hchunk, rfl⟩
  · rw [List.length_replicate]
    decide

/-- C10: the chunk cap is not an upper bound at the paragraph level: a
2001-character single-paragraph file produces a chunk of 2001 characters;
in general, whenever an oversized section contains a paragraph whose
stripped text exceeds the cap, that paragraph is emitted intact as one
chunk, and the cap is respected when every paragraph of an oversized
section is itself at most the cap. -/
theorem chunk_cap_not_upper_bound :
    (∃ c ∈ chunkFile "x".toList (List.replicate 2001 'a'),
       MAX_CHUNK_CHARS < c.2.length) ∧
    (∀ body p : List Char, MAX_CHUNK_CHARS < body.length →
       p ∈ splitParas body → MAX_CHUNK_CHARS < (stripCh p).length →
       stripCh p ∈ chunkBody body) ∧
    (∀ body : List Char,
       (∀ p ∈ splitParas body, p.length ≤ MAX_CHUNK_CHARS) →
       ∀ c ∈ chunkBody body, c.length ≤ MAX_CHUNK_CHARS) :=
  ⟨chunkFile_big_example, chunkBody_oversized_para, chunkBody_cap⟩

theorem chunk_cap_not_upper_bound_witness :
    MAX_CHUNK_CHARS < (List.replicate 2001 'a').length ∧
    List.replicate 2001 'a' ∈ splitParas (List.replicate 2001 'a') ∧
    MAX_CHUNK_CHARS < (stripCh (List.replicate 2001 'a')).length ∧
    stripCh (List.replicate 2001 'a') ∈ chunkBody (List.replicate 2001 'a') := by
  have hp : List.replicate 2001 'a' ∈ splitParas (List.replicate 2001 'a') := by
    unfold splitParas
    rw [splitParasAux_no_nl _ (replicate_a_no_nl 2001), List.reverse_nil,
      List.nil_append]
    exact List.mem_singleton_self _
  have hb : MAX_CHUNK_CHARS < (stripCh (List.replicate 2001 'a')).length := by
    rw [stripCh_no_ws _ (replicate_a_no_ws 2001), List.length_replicate]
    decide
  exact ⟨by rw [List.length_replicate]; decide, hp, hb,
    chunk_cap_not_upper_bound.2.1 _ _ (by rw [List.length_replicate]; decide)
      hp hb⟩

theorem lookupKey_some_mem {κ α : Type} [DecidableEq κ]
    {l : List (κ × α)} {k : κ} {v : α} (h : lookupKey l k = some v) :
    (k, v) ∈ l := by
  induction l with
  | nil => simp [lookupKey, List.find?] at h
  | cons p rest ih =>
    obtain ⟨pk, pv⟩ := p
    rw [lookupKey_cons] at h
    by_cases hk : pk = k
    · rw [if_pos hk] at h
      cases h
      rw [hk]
      exact List.mem_cons_self _ _
    · rw [if_neg hk] at h
      exact List.mem_cons_of_mem _ (ih h)

theorem lookupKey_eq_none {κ α : Type} [DecidableEq κ]
    {l : List (κ × α)} {k : κ} :
    lookupKey l k = none ↔ ∀ p ∈ l, p.1 ≠ k := by
  induction l with
  | nil => simp [lookupKey, List.find?]
  | cons p rest ih =>
    obtain ⟨pk, pv⟩ := p
    rw [lookupKey_cons]
    by_cases hk : pk = k
    · simp [hk]
    · simp [hk, ih]

theorem mem_removeIds {i : VIndex} {ids : List ℕ} {x : ℕ} :
    x ∈ removeIds i ids ↔ x ∈ i ∧ x ∉ ids := by
  simp [removeIds, List.mem_filter]

theorem removeIds_nil (i : VIndex) : removeIds i [] = i := by
  simp [removeIds]

theorem removeIds_append (i : VIndex) (a b : List ℕ) :
    removeIds i (a ++ b) = removeIds (removeIds i a) b := by
  simp only [removeIds, List.filter_filter]
  apply List.filter_congr
  intro x _
  simp only [List.contains_eq_any_beq, List.any_append, Bool.not_or]
  rw [Bool.and_comm]

theorem removeIds_eq_self {i : VIndex} {ids : List ℕ}
    (h : ∀ id ∈ ids, id ∉ i) : removeIds i ids = i := by
  rw [removeIds, List.filter_eq_self]
  intro x hx
  have : x ∉ ids := fun hmem => h x hmem hx
  simpa using this

theorem mem_removeChunks {cs : List (ℕ × ChunkMeta)} {ids : List ℕ}
    {p : ℕ × ChunkMeta} :
    p ∈ removeChunks cs ids ↔ p ∈ cs ∧ p.1 ∉ ids := by
  simp [removeChunks, List.mem_filter]

theorem removeChunks_append (cs : List (ℕ × ChunkMeta)) (a b : List ℕ) :
    removeChunks cs (a ++ b) = removeChunks (removeChunks cs a) b := by
  simp only [removeChunks, List.filter_filter]
  apply List.filter_congr
  intro x _
  simp only [List.contains_eq_any_beq, List.any_append, Bool.not_or]
  rw [Bool.and_comm]

theorem removeChunks_nil (cs : List (ℕ × ChunkMeta)) :
    removeChunks cs [] = cs := by
  simp [removeChunks]

theorem removeChunks_eq_self {cs : List (ℕ × ChunkMeta)} {ids : List ℕ}
    (h : ∀ id ∈ ids, ∀ p ∈ cs, p.1 ≠ id) : removeChunks cs ids = cs := by
  rw [removeChunks, List.filter_eq_self]
  intro p hp
  have : p.1 ∉ ids := fun hmem => h p.1 hmem p hp rfl
  simpa using this

theorem mem_chunkKeys_removeChunks {cs : List (ℕ × ChunkMeta)}
    {ids : List ℕ} {id : ℕ} :
    id ∈ (removeChunks cs ids).map (·.1) ↔
      id ∈ cs.map (·.1) ∧ id ∉ ids := by
  constructor
  · intro h
    obtain ⟨p, hp, hid⟩ := List.mem_map.mp h
    obtain ⟨hpc, hpn⟩ := mem_removeChunks.mp hp
    exact ⟨List.mem_map.mpr ⟨p, hpc, hid⟩, hid ▸ hpn⟩
  · rintro ⟨h, hn⟩
    obtain ⟨p, hp, hid⟩ := List.mem_map.mp h
    exact List.mem_map.mpr ⟨p, mem_removeChunks.mpr ⟨hp, hid ▸ hn⟩, hid⟩

theorem countP_split {α : Type} (l : List α) (p q : α → Bool) :
    l.countP p = (l.filter q).countP p + (l.filter (fun a => !q a)).countP p := by
  induction l with
  | nil => rfl
  | cons a rest ih =>
    by_cases hq : q a <;> by_cases hp : p a <;>
      simp [List.filter_cons, List.countP_cons, hq, hp, ih] <;> try omega

theorem countP_eq_zero_of {α : Type} (l : List α) (p : α → Bool)
    (h : ∀ a ∈ l, p a = false) : l.countP p = 0 := by
  induction l with
  | nil => rfl
  | cons a rest ih =>
    rw [List.countP_cons, h a (List.mem_cons_self _ _)]
    simp [ih (fun x hx => h x (List.mem_cons_of_mem _ hx))]

theorem setKey_cons_eq {κ α : Type} [DecidableEq κ]
    (pk : κ) (pv : α) (rest : List (κ × α)) (v : α) :
    setKey ((pk, pv) :: rest) pk v = (pk, v) :: rest := by
  simp [setKey]

theorem setKey_cons_ne {κ α : Type} [DecidableEq κ]
    (pk k : κ) (pv : α) (rest : List (κ × α)) (v : α) (h : pk ≠ k) :
    setKey ((pk, pv) :: rest) k v = (pk, pv) :: setKey rest k v := by
  simp [setKey, h]

theorem nodupKeys_setKey {κ α : Type} [DecidableEq κ]
    (l : List (κ × α)) (k : κ) (v : α)
    (h : (l.map (·.1)).Nodup) : ((setKey l k v).map (·.1)).Nodup := by
  induction l with
  | nil => simp [setKey]
  | cons p rest ih =>
    obtain ⟨pk, pv⟩ := p
    simp only [List.map_cons, List.nodup_cons] at h
    by_cases hk : pk = k
    · subst hk
      rw [setKey_cons_eq]
      simp only [List.map_cons, List.nodup_cons]
      exact h
    · rw [setKey_cons_ne _ _ _ _ _ hk]
      simp only [List.map_cons, List.nodup_cons]
      refine ⟨?_, ih h.2⟩
      intro hmem
      obtain ⟨q, hq, hq1⟩ := List.mem_map.mp hmem
      rcases mem_setKey hq with rfl | hq'
      · exact hk hq1.symm
      · exact h.1 (List.mem_map.mpr ⟨q, hq', hq1⟩)

theorem ownerCount_setKey_fresh {files : List (String × FileRec)}
    {k : String} {v : FileRec} {id : ℕ}
    (hnone : ∀ p ∈ files, id ∉ p.2.chunkIds) (hv : id ∈ v.chunkIds) :
    ownerCount (setKey files k v) id = 1 := by
  induction files with
  | nil => simp [setKey, ownerCount, List.countP_cons, hv]
  | cons p rest ih =>
    obtain ⟨pk, pv⟩ := p
    have hp : id ∉ pv.chunkIds := hnone (pk, pv) (List.mem_cons_self _ _)
    have hrest : ∀ q ∈ rest, id ∉ q.2.chunkIds :=
      fun q hq => hnone q (List.mem_cons_of_mem _ hq)
    by_cases hk : pk = k
    · subst hk
      rw [setKey_cons_eq]
      unfold ownerCount
      rw [List.countP_cons]
      rw [countP_eq_zero_of]
      · simp [hv]
      · intro q hq
        simpa using hrest q hq
    · rw [setKey_cons_ne _ _ _ _ _ hk]
      unfold ownerCount
      rw [List.countP_cons]
      have := ih hrest
      unfold ownerCount at this
      rw [this]
      simp [hp]

theorem ownerCount_setKey_stable {files : List (String × FileRec)}
    {k : String} {v : FileRec} {id : ℕ} (hv : id ∉ v.chunkIds)
    (hold : ∀ fr, lookupKey files k = some fr → id ∉ fr.chunkIds) :
    ownerCount (setKey files k v) id = ownerCount files id := by
  induction files with
  | nil => simp [setKey, ownerCount, List.countP_cons, hv]
  | cons p rest ih =>
    obtain ⟨pk, pv⟩ := p
    by_cases hk : pk = k
    · subst hk
      have hpv : id ∉ pv.chunkIds := by
        apply hold
        rw [lookupKey_cons, if_pos rfl]
      rw [setKey_cons_eq]
      unfold ownerCount
      rw [List.countP_cons, List.countP_cons]
      simp [hv, hpv]
    · have hold' : ∀ fr, lookupKey rest k = some fr → id ∉ fr.chunkIds := by
        intro fr hfr
        apply hold
        rw [lookupKey_cons, if_neg hk]
        exact hfr
      rw [setKey_cons_ne _ _ _ _ _ hk]
      unfold ownerCount
      rw [List.countP_cons, List.countP_cons]
      have := ih hold'
      unfold ownerCount at this
      rw [this]

theorem removeBoth_inv (m : Manifest) (i : VIndex) (ids : List ℕ)
    (h : IndexInv m i) :
    IndexInv { m with chunks := removeChunks m.chunks ids }
      (removeIds i ids) := by
  refine ⟨?_, ?_, ?_, ?_, ?_, ?_, ?_⟩
  · exact h.nodupIndex.filter _
  · exact h.nodupChunks.sublist ((List.filter_sublist _).map _)
  · exact h.nodupFiles
  · intro id hid
    obtain ⟨hi, hn⟩ := mem_removeIds.mp hid
    exact mem_chunkKeys_removeChunks.mpr ⟨h.subIC id hi, hn⟩
  · intro id hid
    obtain ⟨hc, hn⟩ := mem_chunkKeys_removeChunks.mp hid
    exact mem_removeIds.mpr ⟨h.subCI id hc, hn⟩
  · intro id hid
    obtain ⟨hc, _⟩ := mem_chunkKeys_removeChunks.mp hid
    exact h.owned id hc
  · exact h.idBound

theorem removalPass_inv (m : Manifest) (i : VIndex) (ks : List String)
    (h : IndexInv m i) :
    IndexInv (removalPass m i ks).1 (removalPass m i ks).2.1 := by
  have hrids : ∀ p ∈ m.files.filter (fun p => !ks.contains p.1),
      ∀ id ∈ p.2.chunkIds,
      id ∈ (m.files.filter (fun p => !ks.contains p.1)).flatMap
        (fun p => p.2.chunkIds) :=
    fun p hp id hid => List.mem_flatMap.mpr ⟨p, hp, hid⟩
  refine ⟨?_, ?_, ?_, ?_, ?_, ?_, ?_⟩
  · exact h.nodupIndex.filter _
  · exact h.nodupChunks.sublist ((List.filter_sublist _).map _)
  · exact h.nodupFiles.sublist ((List.filter_sublist _).map _)
  · intro id hid
    obtain ⟨hi, hn⟩ := mem_removeIds.mp hid
    exact mem_chunkKeys_removeChunks.mpr ⟨h.subIC id hi, hn⟩
  · intro id hid
    obtain ⟨hc, hn⟩ := mem_chunkKeys_removeChunks.mp hid
    exact mem_removeIds.mpr ⟨h.subCI id hc, hn⟩
  · intro id hid
    obtain ⟨hc, hn⟩ := mem_chunkKeys_removeChunks.mp hid
    have hsplit := countP_split m.files
      (fun p => p.2.chunkIds.contains id) (fun p => ks.contains p.1)
    have hrem0 : (m.files.filter (fun p => !ks.contains p.1)).countP
        (fun p => p.2.chunkIds.contains id) = 0 := by
      apply countP_eq_zero_of
      intro p hp
      by_cases hpid : id ∈ p.2.chunkIds
      · exact absurd (List.mem_flatMap.mpr ⟨p, hp, hpid⟩) hn
      · simpa using hpid
    have howned := h.owned id hc
    show ownerCount (removalPass m i ks).1.files id = 1
    rw [show (removalPass m i ks).1.files
        = m.files.filter (fun p => ks.contains p.1) from rfl]
    unfold ownerCount at howned ⊢
    omega
  · intro p hp
    exact h.idBound p (List.mem_of_mem_filter hp)

theorem detectPass_spec : ∀ (vault : List VaultFile) (m : Manifest) (i : VIndex),
    detectPass m i vault =
      ({ m with chunks := removeChunks m.chunks (staleIds m.files vault) },
       removeIds i (staleIds m.files vault),
       vault.filter (fun vf => needsProcess m.files vf)) := by
  intro vault
  induction vault with
  | nil =>
    intro m i
    simp only [detectPass, staleIds, removeChunks_nil, removeIds_nil,
      List.filter_nil]
  | cons vf rest ih =>
    intro m i
    rw [detectPass.eq_def]
    dsimp only
    rcases hlk : lookupKey m.files vf.relPath with _ | fr
    · dsimp only
      rw [ih m i]
      have hstale : staleIds m.files (vf :: rest) = staleIds m.files rest := by
        rw [staleIds, hlk]
        rfl
      have hneed : needsProcess m.files vf = true := by
        unfold needsProcess
        rw [hlk]
      rw [hstale, List.filter_cons, hneed]
      simp only [if_true]
    · dsimp only
      by_cases hmt : fr.mtime ≠ vf.mtime ∨ fr.size ≠ vf.size
      · rw [if_pos hmt]
        rw [ih { m with chunks := removeChunks m.chunks fr.chunkIds }
          (removeIds i fr.chunkIds)]
        have hstale : staleIds m.files (vf :: rest)
            = fr.chunkIds ++ staleIds m.files rest := by
          rw [staleIds, hlk]
          simp only [if_pos hmt]
        have hneed : needsProcess m.files vf = true := by
          unfold needsProcess
          rw [hlk]
          simp [hmt]
        rw [hstale, List.filter_cons, hneed]
        simp only [if_true]
        rw [removeChunks_append, removeIds_append]
      · rw [if_neg hmt]
        rw [ih m i]
        have hstale : staleIds m.files (vf :: rest) = staleIds m.files rest := by
          rw [staleIds, hlk]
          simp only [if_neg hmt]
          rfl
        have hneed : needsProcess m.files vf = false := by
          unfold needsProcess
          rw [hlk]
          simp [hmt]
        rw [hstale, List.filter_cons, hneed]
        simp only [Bool.false_eq_true, if_false]

theorem upsertFile_inv (m : Manifest) (i : VIndex) (vf : VaultFile)
    (h : IndexInv m i)
    (side : ∀ fr, lookupKey m.files vf.relPath = some fr →
      ∀ id ∈ fr.chunkIds, id ∉ chunkKeys m) :
    IndexInv (upsertFile m i vf).1 (upsertFile m i vf).2.1 := by
  have hcid_mem : ∀ id ∈ List.range' m.nextId vf.chunks.length,
      m.nextId ≤ id ∧ id < m.nextId + vf.chunks.length :=
    fun id hid => List.mem_range'_1.mp hid
  have hcid_nodup : (List.range' m.nextId vf.chunks.length).Nodup :=
    List.nodup_range' _ _ 1 (by norm_num)
  have hkeys_lt : ∀ id ∈ chunkKeys m, id < m.nextId := by
    intro id hid
    have how := h.owned id hid
    have hpos : 0 < m.files.countP (fun p => p.2.chunkIds.contains id) := by
      unfold ownerCount at how
      omega
    obtain ⟨p, hp, hop⟩ := List.countP_pos_iff.mp hpos
    exact h.idBound p hp id (by simpa using hop)
  have hidx_lt : ∀ id ∈ i, id < m.nextId :=
    fun id hid => hkeys_lt id (h.subIC id hid)
  have hzipfst : (((List.range' m.nextId vf.chunks.length).zip
      vf.chunks).map (·.1)) = List.range' m.nextId vf.chunks.length := by
    rw [show (fun p : ℕ × ChunkMeta => p.1) = Prod.fst from rfl]
    exact List.map_fst_zip _ _ (le_of_eq (List.length_range' _ 1 _))
  have hchunks' : chunkKeys (upsertFile m i vf).1
      = chunkKeys m ++ List.range' m.nextId vf.chunks.length := by
    show (m.chunks ++ _).map (·.1) = _
    rw [List.map_append, hzipfst]
    rfl
  have hindex' : (upsertFile m i vf).2.1
      = i ++ List.range' m.nextId vf.chunks.length := rfl
  have hfiles' : (upsertFile m i vf).1.files
      = setKey m.files vf.relPath
          ⟨vf.mtime, vf.size, List.range' m.nextId vf.chunks.length⟩ := rfl
  have hnext' : (upsertFile m i vf).1.nextId
      = m.nextId + vf.chunks.length := rfl
  refine ⟨?_, ?_, ?_, ?_, ?_, ?_, ?_⟩
  · rw [hindex', List.nodup_append]
    refine ⟨h.nodupIndex, hcid_nodup, ?_⟩
    intro a ha hb
    have h1 := hidx_lt a ha
    have h2 := (hcid_mem a hb).1
    omega
  · rw [hchunks', List.nodup_append]
    refine ⟨h.nodupChunks, hcid_nodup, ?_⟩
    intro a ha hb
    have h1 := hkeys_lt a ha
    have h2 := (hcid_mem a hb).1
    omega
  · rw [hfiles']
    exact nodupKeys_setKey _ _ _ h.nodupFiles
  · intro id hid
    rw [hindex'] at hid
    rw [hchunks']
    rcases List.mem_append.mp hid with hl | hr
    · exact List.mem_append.mpr (Or.inl (h.subIC id hl))
    · exact List.mem_append.mpr (Or.inr hr)
  · intro id hid
    rw [hchunks'] at hid
    rw [hindex']
    rcases List.mem_append.mp hid with hl | hr
    · exact List.mem_append.mpr (Or.inl (h.subCI id hl))
    · exact List.mem_append.mpr (Or.inr hr)
  · intro id hid
    rw [hchunks'] at hid
    rw [hfiles']
    rcases List.mem_append.mp hid with hold | hnew
    · have hnotin : id ∉ List.range' m.nextId vf.chunks.length := by
        intro hc
        have h1 := (hcid_mem id hc).1
        have h2 := hkeys_lt id hold
        omega
      rw [ownerCount_setKey_stable]
      · exact h.owned id hold
      · exact hnotin
      · intro fr hfr hin
        exact absurd hold (side fr hfr id hin)
    · rw [ownerCount_setKey_fresh]
      · intro p hp hin
        have h1 := h.idBound p hp id hin
        have h2 := (hcid_mem id hnew).1
        omega
      · exact hnew
  · intro p hp id hid
    rw [hfiles'] at hp
    rw [hnext']
    rcases mem_setKey hp with rfl | hp'
    · have := (hcid_mem id hid).2
      omega
    · have := h.idBound p hp' id hid
      omega

theorem upsertAll_inv : ∀ (queue : List VaultFile) (m : Manifest) (i : VIndex),
    IndexInv m i →
    (queue.map (·.relPath)).Nodup →
    (∀ vf ∈ queue, ∀ fr, lookupKey m.files vf.relPath = some fr →
      ∀ id ∈ fr.chunkIds, id ∉ chunkKeys m) →
    IndexInv (upsertAll m i queue).1 (upsertAll m i queue).2.1 := by
  intro queue
  induction queue with
  | nil => intro m i h _ _; exact h
  | cons vf rest ih =>
    intro m i h hnd side
    simp only [List.map_cons, List.nodup_cons] at hnd
    have hkeys_lt : ∀ id ∈ chunkKeys m, id < m.nextId := by
      intro id hid
      have how := h.owned id hid
      have hpos : 0 < m.files.countP (fun p => p.2.chunkIds.contains id) := by
        unfold ownerCount at how
        omega
      obtain ⟨p, hp, hop⟩ := List.countP_pos_iff.mp hpos
      exact h.idBound p hp id (by simpa using hop)
    show IndexInv (upsertAll (upsertFile m i vf).1 (upsertFile m i vf).2.1 rest).1
      (upsertAll (upsertFile m i vf).1 (upsertFile m i vf).2.1 rest).2.1
    refine ih _ _
      (upsertFile_inv m i vf h
        (fun fr hfr id hin => side vf (List.mem_cons_self _ _) fr hfr id hin))
      hnd.2 ?_
    intro vf' hvf' fr hfr id hin hmem
    have hne : vf'.relPath ≠ vf.relPath := by
      intro he
      exact hnd.1 (List.mem_map.mpr ⟨vf', hvf', he⟩)
    rw [show (upsertFile m i vf).1.files
        = setKey m.files vf.relPath
            ⟨vf.mtime, vf.size, List.range' m.nextId vf.chunks.length⟩ from rfl,
      lookupKey_setKey_ne _ _ _ _ hne] at hfr
    have hdead := side vf' (List.mem_cons_of_mem _ hvf') fr hfr id hin
    have hfr_mem := lookupKey_some_mem hfr
    have hlt := h.idBound _ hfr_mem id hin
    rw [show chunkKeys (upsertFile m i vf).1
        = chunkKeys m ++ List.range' m.nextId vf.chunks.length from by
      show (m.chunks ++ _).map (·.1) = _
      rw [List.map_append,
        show (fun p : ℕ × ChunkMeta => p.1) = Prod.fst from rfl,
        List.map_fst_zip _ _ (le_of_eq (List.length_range' _ 1 _))]
      rfl] at hmem
    rcases List.mem_append.mp hmem with hl | hr
    · exact hdead hl
    · have := (List.mem_range'_1.mp hr).1
      omega

theorem upsertAll_lookup_not_mem : ∀ (queue : List VaultFile)
    (m : Manifest) (i : VIndex) (rel : String),
    rel ∉ queue.map (·.relPath) →
    lookupKey (upsertAll m i queue).1.files rel = lookupKey m.files rel := by
  intro queue
  induction queue with
  | nil => intro m i rel _; rfl
  | cons vf rest ih =>
    intro m i rel hrel
    simp only [List.map_cons, List.mem_cons, not_or] at hrel
    show lookupKey (upsertAll (upsertFile m i vf).1 (upsertFile m i vf).2.1
      rest).1.files rel = _
    rw [ih _ _ rel hrel.2]
    rw [show (upsertFile m i vf).1.files
        = setKey m.files vf.relPath
            ⟨vf.mtime, vf.size, List.range' m.nextId vf.chunks.length⟩ from rfl]
    exact lookupKey_setKey_ne _ _ _ _ hrel.1

theorem upsertAll_lookup_mem : ∀ (queue : List VaultFile)
    (m : Manifest) (i : VIndex) (vf : VaultFile),
    (queue.map (·.relPath)).Nodup → vf ∈ queue →
    ∃ cids, lookupKey (upsertAll m i queue).1.files vf.relPath
      = some ⟨vf.mtime, vf.size, cids⟩ := by
  intro queue
  induction queue with
  | nil => intro m i vf _ hvf; cases hvf
  | cons vf0 rest ih =>
    intro m i vf hnd hvf
    simp only [List.map_cons, List.nodup_cons] at hnd
    show ∃ cids, lookupKey (upsertAll (upsertFile m i vf0).1
      (upsertFile m i vf0).2.1 rest).1.files vf.relPath = _
    rcases List.mem_cons.mp hvf with rfl | hvf'
    · have hnot : vf.relPath ∉ rest.map (·.relPath) := hnd.1
      rw [upsertAll_lookup_not_mem rest _ _ _ hnot]
      rw [show (upsertFile m i vf).1.files
          = setKey m.files vf.relPath
              ⟨vf.mtime, vf.size, List.range' m.nextId vf.chunks.length⟩ from rfl]
      exact ⟨_, lookupKey_setKey_self _ _ _⟩
    · exact ih _ _ vf hnd.2 hvf'

theorem upsertAll_nextId_mono : ∀ (queue : List VaultFile)
    (m : Manifest) (i : VIndex),
    m.nextId ≤ (upsertAll m i queue).1.nextId := by
  intro queue
  induction queue with
  | nil => intro m i; exact le_refl _
  | cons vf rest ih =>
    intro m i
    have h1 := ih (upsertFile m i vf).1 (upsertFile m i vf).2.1
    have h2 : m.nextId ≤ (upsertFile m i vf).1.nextId := by
      rw [show (upsertFile m i vf).1.nextId = m.nextId + vf.chunks.length
        from rfl]
      omega
    exact le_trans h2 h1

theorem upsertAll_index_mem : ∀ (queue : List VaultFile)
    (m : Manifest) (i : VIndex) (id : ℕ),
    id ∈ (upsertAll m i queue).2.1 → id ∈ i ∨ m.nextId ≤ id := by
  intro queue
  induction queue with
  | nil => intro m i id hid; exact Or.inl hid
  | cons vf rest ih =>
    intro m i id hid
    rcases ih _ _ id hid with hl | hr
    · rw [show (upsertFile m i vf).2.1
          = i ++ List.range' m.nextId vf.chunks.length from rfl] at hl
      rcases List.mem_append.mp hl with h1 | h2
      · exact Or.inl h1
      · exact Or.inr (List.mem_range'_1.mp h2).1
    · rw [show (upsertFile m i vf).1.nextId = m.nextId + vf.chunks.length
        from rfl] at hr
      exact Or.inr (by omega)

theorem upsertAll_chunkKeys_mem : ∀ (queue : List VaultFile)
    (m : Manifest) (i : VIndex) (id : ℕ),
    id ∈ chunkKeys (upsertAll m i queue).1 →
      id ∈ chunkKeys m ∨ m.nextId ≤ id := by
  intro queue
  induction queue with
  | nil => intro m i id hid; exact Or.inl hid
  | cons vf rest ih =>
    intro m i id hid
    rcases ih _ _ id hid with hl | hr
    · rw [show chunkKeys (upsertFile m i vf).1
          = chunkKeys m ++ List.range' m.nextId vf.chunks.length from by
        show (m.chunks ++ _).map (·.1) = _
        rw [List.map_append,
          show (fun p : ℕ × ChunkMeta => p.1) = Prod.fst from rfl,
          List.map_fst_zip _ _ (le_of_eq (List.length_range' _ 1 _))]
        rfl] at hl
      rcases List.mem_append.mp hl with h1 | h2
      · exact Or.inl h1
      · exact Or.inr (List.mem_range'_1.mp h2).1
    · rw [show (upsertFile m i vf).1.nextId = m.nextId + vf.chunks.length
        from rfl] at hr
      exact Or.inr (by omega)

theorem upsertAll_model_dim : ∀ (queue : List VaultFile)
    (m : Manifest) (i : VIndex),
    (upsertAll m i queue).1.model = m.model ∧
    (upsertAll m i queue).1.dim = m.dim := by
  intro queue
  induction queue with
  | nil => intro m i; exact ⟨rfl, rfl⟩
  | cons vf rest ih =>
    intro m i
    exact ih (upsertFile m i vf).1 (upsertFile m i vf).2.1

theorem upsertAll_files_keys : ∀ (queue : List VaultFile)
    (m : Manifest) (i : VIndex) (p : String × FileRec),
    p ∈ (upsertAll m i queue).1.files →
      p.1 ∈ m.files.map (·.1) ∨ p.1 ∈ queue.map (·.relPath) := by
  intro queue
  induction queue with
  | nil => intro m i p hp; exact Or.inl (List.mem_map.mpr ⟨p, hp, rfl⟩)
  | cons vf rest ih =>
    intro m i p hp
    rcases ih _ _ p hp with hl | hr
    · rw [show (upsertFile m i vf).1.files
          = setKey m.files vf.relPath
              ⟨vf.mtime, vf.size, List.range' m.nextId vf.chunks.length⟩
          from rfl] at hl
      obtain ⟨q, hq, hq1⟩ := List.mem_map.mp hl
      rcases mem_setKey hq with rfl | hq'
      · right
        rw [← hq1]
        exact List.mem_map.mpr ⟨vf, List.mem_cons_self _ _, rfl⟩
      · exact Or.inl (List.mem_map.mpr ⟨q, hq', hq1⟩)
    · exact Or.inr (List.mem_map.mpr (by
        obtain ⟨q, hq, hq1⟩ := List.mem_map.mp hr
        exact ⟨q, List.mem_cons_of_mem _ hq, hq1⟩))

theorem contains_iff_mem {l : List String} {a : String} :
    l.contains a = true ↔ a ∈ l := by
  simp

theorem staleIds_superset : ∀ (vault : List VaultFile)
    (files : List (String × FileRec)) (vf : VaultFile) (fr : FileRec),
    vf ∈ vault → lookupKey files vf.relPath = some fr →
    (fr.mtime ≠ vf.mtime ∨ fr.size ≠ vf.size) →
    ∀ id ∈ fr.chunkIds, id ∈ staleIds files vault := by
  intro vault
  induction vault with
  | nil => intro files vf fr hvf; cases hvf
  | cons vf0 rest ih =>
    intro files vf fr hvf hlk hmm id hid
    rcases List.mem_cons.mp hvf with rfl | hvf'
    · rw [staleIds, hlk]
      dsimp only
      rw [if_pos hmm]
      exact List.mem_append.mpr (Or.inl hid)
    · rw [staleIds]
      exact List.mem_append.mpr (Or.inr (ih files vf fr hvf' hlk hmm id hid))

theorem staleIds_sub : ∀ (vault : List VaultFile)
    (files : List (String × FileRec)) (P : ℕ → Prop),
    (∀ vf ∈ vault, ∀ fr, lookupKey files vf.relPath = some fr →
      (fr.mtime ≠ vf.mtime ∨ fr.size ≠ vf.size) → ∀ id ∈ fr.chunkIds, P id) →
    ∀ id ∈ staleIds files vault, P id := by
  intro vault
  induction vault with
  | nil => intro files P _ id hid; cases hid
  | cons vf rest ih =>
    intro files P hP id hid
    rw [staleIds] at hid
    rcases List.mem_append.mp hid with hl | hr
    · rcases hlk : lookupKey files vf.relPath with _ | fr
      · rw [hlk] at hl
        cases hl
      · rw [hlk] at hl
        dsimp only at hl
        by_cases hmm : fr.mtime ≠ vf.mtime ∨ fr.size ≠ vf.size
        · rw [if_pos hmm] at hl
          exact hP vf (List.mem_cons_self _ _) fr hlk hmm id hl
        · rw [if_neg hmm] at hl
          cases hl
    · exact ih files P (fun vf' hvf' => hP vf' (List.mem_cons_of_mem _ hvf')) id hr

theorem freshManifest_inv : IndexInv freshManifest [] := by
  refine ⟨List.nodup_nil, List.nodup_nil, List.nodup_nil, ?_, ?_, ?_, ?_⟩
  · intro id hid; cases hid
  · intro id hid; cases hid
  · intro id hid; cases hid
  · intro p hp; cases hp

theorem ensureIndex_pipeline (vault : List VaultFile) (m : Manifest)
    (i : VIndex) (hm : m.model = EMBEDDING_MODEL)
    (hd : m.dim = EMBEDDING_DIM) :
    ensureIndex false true true vault m i = pipeline vault m i := by
  have hcond : ¬(false = true ∨ m.model ≠ EMBEDDING_MODEL ∨ m.dim ≠ EMBEDDING_DIM) := by
    simp [hm, hd]
  unfold ensureIndex pipeline
  rw [if_neg hcond]
  rfl

theorem ensureIndex_rebuild (force : Bool) (vault : List VaultFile)
    (m : Manifest) (i : VIndex)
    (h : force = true ∨ m.model ≠ EMBEDDING_MODEL ∨ m.dim ≠ EMBEDDING_DIM) :
    ensureIndex force true true vault m i = pipeline vault freshManifest [] := by
  unfold ensureIndex pipeline
  rw [if_pos h]
  rfl

theorem pipeline_model_dim (vault : List VaultFile) (m : Manifest)
    (i : VIndex) :
    (pipeline vault m i).1.model = m.model ∧
    (pipeline vault m i).1.dim = m.dim := by
  unfold pipeline
  dsimp only
  rw [detectPass_spec]
  dsimp only
  by_cases hq : (vault.filter (fun vf =>
      needsProcess (removalPass m i (vault.map (·.relPath))).1.files
        vf)).isEmpty = true
  · rw [if_pos hq]
    exact ⟨rfl, rfl⟩
  · rw [if_neg hq]
    by_cases ha : (vault.filter (fun vf =>
        needsProcess (removalPass m i (vault.map (·.relPath))).1.files
          vf)).all (fun vf => vf.chunks.isEmpty) = true
    · rw [if_pos ha]
      exact ⟨rfl, rfl⟩
    · rw [if_neg ha]
      exact upsertAll_model_dim _ _ _

theorem pipeline_inv (vault : List VaultFile) (m : Manifest) (i : VIndex)
    (hinv : IndexInv m i) (hnd : (vault.map (·.relPath)).Nodup) :
    IndexInv (pipeline vault m i).1 (pipeline vault m i).2.1 := by
  have h1 : IndexInv (removalPass m i (vault.map (·.relPath))).1
      (removalPass m i (vault.map (·.relPath))).2.1 :=
    removalPass_inv m i _ hinv
  have h2 := removeBoth_inv (removalPass m i (vault.map (·.relPath))).1
    (removalPass m i (vault.map (·.relPath))).2.1
    (staleIds (removalPass m i (vault.map (·.relPath))).1.files vault) h1
  have hqnd : ((vault.filter (fun vf =>
      needsProcess (removalPass m i (vault.map (·.relPath))).1.files
        vf)).map (·.relPath)).Nodup :=
    List.Nodup.sublist (List.Sublist.map _ (List.filter_sublist vault)) hnd
  unfold pipeline
  dsimp only
  rw [detectPass_spec]
  dsimp only
  by_cases hq : (vault.filter (fun vf =>
      needsProcess (removalPass m i (vault.map (·.relPath))).1.files
        vf)).isEmpty = true
  · rw [if_pos hq]
    exact h2
  · rw [if_neg hq]
    by_cases ha : (vault.filter (fun vf =>
        needsProcess (removalPass m i (vault.map (·.relPath))).1.files
          vf)).all (fun vf => vf.chunks.isEmpty) = true
    · rw [if_pos ha]
      exact h2
    · rw [if_neg ha]
      refine upsertAll_inv _ _ _ h2 hqnd ?_
      intro vf hvf fr hfr id hid hmem
      have hvf' := List.mem_filter.mp hvf
      have hlk : lookupKey
          (removalPass m i (vault.map (·.relPath))).1.files vf.relPath
          = some fr := hfr
      have hnp := hvf'.2
      unfold needsProcess at hnp
      rw [hlk] at hnp
      dsimp only at hnp
      have hmm : fr.mtime ≠ vf.mtime ∨ fr.size ≠ vf.size :=
        of_decide_eq_true hnp
      have hS : id ∈ staleIds
          (removalPass m i (vault.map (·.relPath))).1.files vault :=
        staleIds_superset vault _ vf fr hvf'.1 hlk hmm id hid
      exact (mem_chunkKeys_removeChunks.mp hmem).2 hS

theorem pipeline_deleted (vault : List VaultFile) (m : Manifest)
    (i : VIndex) (hinv : IndexInv m i) (rel : String) (fr : FileRec)
    (hlk : lookupKey m.files rel = some fr)
    (hgone : rel ∉ vault.map (·.relPath)) :
    lookupKey (pipeline vault m i).1.files rel = none ∧
    ∀ id ∈ fr.chunkIds, id ∉ (pipeline vault m i).2.1 ∧
      id ∉ chunkKeys (pipeline vault m i).1 := by
  have hcont : (vault.map (·.relPath)).contains rel = false := by
    by_cases hc : (vault.map (·.relPath)).contains rel = true
    · exact absurd (contains_iff_mem.mp hc) hgone
    · exact Bool.eq_false_iff.mpr (fun he => hc he)
  have hrid : ∀ id ∈ fr.chunkIds, id ∈ (m.files.filter
      (fun p => !(vault.map (·.relPath)).contains p.1)).flatMap
      (fun p => p.2.chunkIds) := by
    intro id hid
    refine List.mem_flatMap.mpr ⟨(rel, fr), ?_, hid⟩
    refine List.mem_filter.mpr ⟨lookupKey_some_mem hlk, ?_⟩
    rw [hcont]
    rfl
  have hA : lookupKey (removalPass m i (vault.map (·.relPath))).1.files rel
      = none := by
    refine lookupKey_eq_none.mpr ?_
    intro p hp he
    have hp' := List.mem_filter.mp hp
    rw [he] at hp'
    rw [hcont] at hp'
    exact absurd hp'.2 (by decide)
  have hI1 : ∀ id ∈ fr.chunkIds,
      id ∉ (removalPass m i (vault.map (·.relPath))).2.1 := by
    intro id hid hmem
    exact (mem_removeIds.mp hmem).2 (hrid id hid)
  have hC1 : ∀ id ∈ fr.chunkIds,
      id ∉ chunkKeys (removalPass m i (vault.map (·.relPath))).1 := by
    intro id hid hmem
    exact (mem_chunkKeys_removeChunks.mp hmem).2 (hrid id hid)
  have hlt : ∀ id ∈ fr.chunkIds, id < m.nextId :=
    hinv.idBound (rel, fr) (lookupKey_some_mem hlk)
  have hI2 : ∀ id ∈ fr.chunkIds,
      id ∉ removeIds (removalPass m i (vault.map (·.relPath))).2.1
        (staleIds (removalPass m i (vault.map (·.relPath))).1.files vault) := by
    intro id hid hmem
    exact hI1 id hid (mem_removeIds.mp hmem).1
  have hC2 : ∀ id ∈ fr.chunkIds, id ∉ chunkKeys
      { (removalPass m i (vault.map (·.relPath))).1 with
          chunks := removeChunks
            (removalPass m i (vault.map (·.relPath))).1.chunks
            (staleIds (removalPass m i (vault.map (·.relPath))).1.files
              vault) } := by
    intro id hid hmem
    exact hC1 id hid (mem_chunkKeys_removeChunks.mp hmem).1
  have hqrel : rel ∉ (vault.filter (fun vf =>
      needsProcess (removalPass m i (vault.map (·.relPath))).1.files
        vf)).map (·.relPath) := by
    intro hq
    obtain ⟨vf, hvf, hvfe⟩ := List.mem_map.mp hq
    exact hgone (List.mem_map.mpr
      ⟨vf, List.mem_of_mem_filter hvf, hvfe⟩)
  unfold pipeline
  dsimp only
  rw [detectPass_spec]
  dsimp only
  by_cases hq : (vault.filter (fun vf =>
      needsProcess (removalPass m i (vault.map (·.relPath))).1.files
        vf)).isEmpty = true
  · rw [if_pos hq]
    exact ⟨hA, fun id hid => ⟨hI2 id hid, hC2 id hid⟩⟩
  · rw [if_neg hq]
    by_cases ha : (vault.filter (fun vf =>
        needsProcess (removalPass m i (vault.map (·.relPath))).1.files
          vf)).all (fun vf => vf.chunks.isEmpty) = true
    · rw [if_pos ha]
      exact ⟨hA, fun id hid => ⟨hI2 id hid, hC2 id hid⟩⟩
    · rw [if_neg ha]
      constructor
      · rw [upsertAll_lookup_not_mem _ _ _ rel hqrel]
        exact hA
      · intro id hid
        constructor
        · intro hmem
          rcases upsertAll_index_mem _ _ _ id hmem with hl | hr
          · exact hI2 id hid hl
          · have := hlt id hid
            have hnx : ({ (removalPass m i (vault.map (·.relPath))).1 with
                chunks := removeChunks
                  (removalPass m i (vault.map (·.relPath))).1.chunks
                  (staleIds
                    (removalPass m i (vault.map (·.relPath))).1.files
                    vault) } : Manifest).nextId = m.nextId := rfl
            rw [hnx] at hr
            omega
        · intro hmem
          rcases upsertAll_chunkKeys_mem _ _ _ id hmem with hl | hr
          · exact hC2 id hid hl
          · have := hlt id hid
            have hnx : ({ (removalPass m i (vault.map (·.relPath))).1 with
                chunks := removeChunks
                  (removalPass m i (vault.map (·.relPath))).1.chunks
                  (staleIds
                    (removalPass m i (vault.map (·.relPath))).1.files
                    vault) } : Manifest).nextId = m.nextId := rfl
            rw [hnx] at hr
            omega

theorem needsProcess_false_matched {files : List (String × FileRec)}
    {vf : VaultFile} {fr : FileRec}
    (hlk : lookupKey files vf.relPath = some fr)
    (h : needsProcess files vf = false) :
    fr.mtime = vf.mtime ∧ fr.size = vf.size := by
  unfold needsProcess at h
  rw [hlk] at h
  dsimp only at h
  have h' := of_decide_eq_false h
  rcases not_or.mp h' with ⟨h1, h2⟩
  exact ⟨not_not.mp h1, not_not.mp h2⟩

theorem needsProcess_true_of_none {files : List (String × FileRec)}
    {vf : VaultFile} (hlk : lookupKey files vf.relPath = none) :
    needsProcess files vf = true := by
  unfold needsProcess
  rw [hlk]

theorem needsProcess_true_of_mismatch {files : List (String × FileRec)}
    {vf : VaultFile} {fr : FileRec}
    (hlk : lookupKey files vf.relPath = some fr)
    (h : fr.mtime ≠ vf.mtime ∨ fr.size ≠ vf.size) :
    needsProcess files vf = true := by
  unfold needsProcess
  rw [hlk]
  dsimp only
  exact decide_eq_true h

theorem pipeline_stable (vault : List VaultFile) (m : Manifest) (i : VIndex)
    (hnd : (vault.map (·.relPath)).Nodup) :
    stableState vault (pipeline vault m i).1 (pipeline vault m i).2.1 := by
  have hS1M : ∀ p ∈ (removalPass m i (vault.map (·.relPath))).1.files,
      p.1 ∈ vault.map (·.relPath) := by
    intro p hp
    have hp' : p ∈ m.files.filter
        (fun p => (vault.map (·.relPath)).contains p.1) := hp
    exact contains_iff_mem.mp (List.mem_filter.mp hp').2
  have hqnd : ((vault.filter (fun vf =>
      needsProcess (removalPass m i (vault.map (·.relPath))).1.files
        vf)).map (·.relPath)).Nodup :=
    List.Nodup.sublist (List.Sublist.map _ (List.filter_sublist vault)) hnd
  have hdead : ∀ vf ∈ vault, ∀ fr,
      lookupKey (removalPass m i (vault.map (·.relPath))).1.files vf.relPath
        = some fr →
      (fr.mtime ≠ vf.mtime ∨ fr.size ≠ vf.size) →
      ∀ id ∈ fr.chunkIds,
        id ∉ removeIds (removalPass m i (vault.map (·.relPath))).2.1
          (staleIds (removalPass m i (vault.map (·.relPath))).1.files
            vault) ∧
        id ∉ chunkKeys
          { (removalPass m i (vault.map (·.relPath))).1 with
              chunks := removeChunks
                (removalPass m i (vault.map (·.relPath))).1.chunks
                (staleIds
                  (removalPass m i (vault.map (·.relPath))).1.files
                  vault) } := by
    intro vf hvf fr hlk hmm id hid
    have hS : id ∈ staleIds
        (removalPass m i (vault.map (·.relPath))).1.files vault :=
      staleIds_superset vault _ vf fr hvf hlk hmm id hid
    exact ⟨fun hmem => (mem_removeIds.mp hmem).2 hS,
      fun hmem => (mem_chunkKeys_removeChunks.mp hmem).2 hS⟩
  unfold pipeline
  dsimp only
  rw [detectPass_spec]
  dsimp only
  by_cases hq : (vault.filter (fun vf =>
      needsProcess (removalPass m i (vault.map (·.relPath))).1.files
        vf)).isEmpty = true
  · rw [if_pos hq]
    have hqnil : vault.filter (fun vf =>
        needsProcess (removalPass m i (vault.map (·.relPath))).1.files
          vf) = [] := List.isEmpty_iff.mp hq
    refine ⟨hS1M, ?_, ?_⟩
    · intro vf hvf fr hfr
      have hlk : lookupKey
          (removalPass m i (vault.map (·.relPath))).1.files vf.relPath
          = some fr := hfr
      by_cases hmm : fr.mtime ≠ vf.mtime ∨ fr.size ≠ vf.size
      · have hmem : vf ∈ vault.filter (fun vf =>
            needsProcess (removalPass m i (vault.map (·.relPath))).1.files
              vf) :=
          List.mem_filter.mpr ⟨hvf, needsProcess_true_of_mismatch hlk hmm⟩
        rw [hqnil] at hmem
        cases hmem
      · rcases not_or.mp hmm with ⟨h1, h2⟩
        exact Or.inl ⟨not_not.mp h1, not_not.mp h2⟩
    · intro vf hvf hnone
      have hlk : lookupKey
          (removalPass m i (vault.map (·.relPath))).1.files vf.relPath
          = none := hnone
      have hmem : vf ∈ vault.filter (fun vf =>
          needsProcess (removalPass m i (vault.map (·.relPath))).1.files
            vf) :=
        List.mem_filter.mpr ⟨hvf, needsProcess_true_of_none hlk⟩
      rw [hqnil] at hmem
      cases hmem
  · rw [if_neg hq]
    by_cases ha : (vault.filter (fun vf =>
        needsProcess (removalPass m i (vault.map (·.relPath))).1.files
          vf)).all (fun vf => vf.chunks.isEmpty) = true
    · rw [if_pos ha]
      refine ⟨hS1M, ?_, ?_⟩
      · intro vf hvf fr hfr
        have hlk : lookupKey
            (removalPass m i (vault.map (·.relPath))).1.files vf.relPath
            = some fr := hfr
        by_cases hmm : fr.mtime ≠ vf.mtime ∨ fr.size ≠ vf.size
        · have hmem : vf ∈ vault.filter (fun vf =>
              needsProcess
                (removalPass m i (vault.map (·.relPath))).1.files vf) :=
            List.mem_filter.mpr ⟨hvf, needsProcess_true_of_mismatch hlk hmm⟩
          have hempty : vf.chunks = [] :=
            List.isEmpty_iff.mp (List.all_eq_true.mp ha vf hmem)
          exact Or.inr ⟨hempty, hdead vf hvf fr hlk hmm⟩
        · rcases not_or.mp hmm with ⟨h1, h2⟩
          exact Or.inl ⟨not_not.mp h1, not_not.mp h2⟩
      · intro vf hvf hnone
        have hlk : lookupKey
            (removalPass m i (vault.map (·.relPath))).1.files vf.relPath
            = none := hnone
        have hmem : vf ∈ vault.filter (fun vf =>
            needsProcess (removalPass m i (vault.map (·.relPath))).1.files
              vf) :=
          List.mem_filter.mpr ⟨hvf, needsProcess_true_of_none hlk⟩
        exact List.isEmpty_iff.mp (List.all_eq_true.mp ha vf hmem)
    · rw [if_neg ha]
      have hnotq : ∀ vf ∈ vault, vf ∉ vault.filter (fun vf =>
          needsProcess (removalPass m i (vault.map (·.relPath))).1.files
            vf) →
          vf.relPath ∉ (vault.filter (fun vf =>
            needsProcess (removalPass m i (vault.map (·.relPath))).1.files
              vf)).map (·.relPath) := by
        intro vf hvf hnq hmem
        obtain ⟨vf', hvf', he⟩ := List.mem_map.mp hmem
        have : vf' = vf := List.inj_on_of_nodup_map hnd
          (List.mem_of_mem_filter hvf') hvf he
        rw [this] at hvf'
        exact hnq hvf'
      refine ⟨?_, ?_, ?_⟩
      · intro p hp
        rcases upsertAll_files_keys _ _ _ p hp with hl | hr
        · obtain ⟨q, hq', hqe⟩ := List.mem_map.mp hl
          rw [← hqe]
          exact hS1M q hq'
        · obtain ⟨vf, hvf, hvfe⟩ := List.mem_map.mp hr
          rw [← hvfe]
          exact List.mem_map.mpr ⟨vf, List.mem_of_mem_filter hvf, rfl⟩
      · intro vf hvf fr hfr
        by_cases hvq : vf ∈ vault.filter (fun vf =>
            needsProcess (removalPass m i (vault.map (·.relPath))).1.files
              vf)
        · obtain ⟨cids, hc⟩ := upsertAll_lookup_mem (vault.filter (fun vf =>
              needsProcess
                (removalPass m i (vault.map (·.relPath))).1.files vf))
            { (removalPass m i (vault.map (·.relPath))).1 with
              chunks := removeChunks
                (removalPass m i (vault.map (·.relPath))).1.chunks
                (staleIds
                  (removalPass m i (vault.map (·.relPath))).1.files
                  vault) }
            (removeIds (removalPass m i (vault.map (·.relPath))).2.1
              (staleIds
                (removalPass m i (vault.map (·.relPath))).1.files vault)) vf hqnd hvq
          have hfr2 := Option.some.inj (hfr.symm.trans hc)
          rw [hfr2]
          exact Or.inl ⟨rfl, rfl⟩
        · have hlk : lookupKey
              (removalPass m i (vault.map (·.relPath))).1.files vf.relPath
              = some fr := by
            have := upsertAll_lookup_not_mem (vault.filter (fun vf =>
              needsProcess
                (removalPass m i (vault.map (·.relPath))).1.files vf))
              { (removalPass m i (vault.map (·.relPath))).1 with
                  chunks := removeChunks
                    (removalPass m i (vault.map (·.relPath))).1.chunks
                    (staleIds
                      (removalPass m i (vault.map (·.relPath))).1.files
                      vault) }
              (removeIds (removalPass m i (vault.map (·.relPath))).2.1
                (staleIds
                  (removalPass m i (vault.map (·.relPath))).1.files vault))
              vf.relPath (hnotq vf hvf hvq)
            rw [this] at hfr
            exact hfr
          have hnpf : needsProcess
              (removalPass m i (vault.map (·.relPath))).1.files vf
              = false := by
            rcases hnp : needsProcess
                (removalPass m i (vault.map (·.relPath))).1.files vf
            · exact hnp
            · exact absurd (List.mem_filter.mpr ⟨hvf, hnp⟩) hvq
          exact Or.inl (needsProcess_false_matched hlk hnpf)
      · intro vf hvf hnone
        by_cases hvq : vf ∈ vault.filter (fun vf =>
            needsProcess (removalPass m i (vault.map (·.relPath))).1.files
              vf)
        · obtain ⟨cids, hc⟩ := upsertAll_lookup_mem (vault.filter (fun vf =>
              needsProcess
                (removalPass m i (vault.map (·.relPath))).1.files vf))
            { (removalPass m i (vault.map (·.relPath))).1 with
              chunks := removeChunks
                (removalPass m i (vault.map (·.relPath))).1.chunks
                (staleIds
                  (removalPass m i (vault.map (·.relPath))).1.files
                  vault) }
            (removeIds (removalPass m i (vault.map (·.relPath))).2.1
              (staleIds
                (removalPass m i (vault.map (·.relPath))).1.files vault)) vf hqnd hvq
          cases hnone.symm.trans hc
        · have hlk : lookupKey
              (removalPass m i (vault.map (·.relPath))).1.files vf.relPath
              = none := by
            have := upsertAll_lookup_not_mem (vault.filter (fun vf =>
              needsProcess
                (removalPass m i (vault.map (·.relPath))).1.files vf))
              { (removalPass m i (vault.map (·.relPath))).1 with
                  chunks := removeChunks
                    (removalPass m i (vault.map (·.relPath))).1.chunks
                    (staleIds
                      (removalPass m i (vault.map (·.relPath))).1.files
                      vault) }
              (removeIds (removalPass m i (vault.map (·.relPath))).2.1
                (staleIds
                  (removalPass m i (vault.map (·.relPath))).1.files vault))
              vf.relPath (hnotq vf hvf hvq)
            rw [this] at hnone
            exact hnone
          exact absurd
            (List.mem_filter.mpr ⟨hvf, needsProcess_true_of_none hlk⟩) hvq

theorem stable_noop (vault : List VaultFile) (m : Manifest) (i : VIndex)
    (hst : stableState vault m i) (hm : m.model = EMBEDDING_MODEL)
    (hd : m.dim = EMBEDDING_DIM) :
    ensureIndex false true true vault m i = (m, i, (0, 0, 0)) := by
  obtain ⟨hs1, hs2, hs3⟩ := hst
  have hkept : m.files.filter
      (fun p => (vault.map (·.relPath)).contains p.1) = m.files := by
    refine List.filter_eq_self.mpr ?_
    intro p hp
    exact contains_iff_mem.mpr (hs1 p hp)
  have hrem : m.files.filter
      (fun p => !(vault.map (·.relPath)).contains p.1) = [] := by
    refine List.filter_eq_nil_iff.mpr ?_
    intro p hp
    rw [contains_iff_mem.mpr (hs1 p hp)]
    decide
  have hr1 : removalPass m i (vault.map (·.relPath)) = (m, i, 0) := by
    unfold removalPass
    dsimp only
    rw [hkept, hrem]
    have h0 : ([] : List (String × FileRec)).flatMap
        (fun p => p.2.chunkIds) = [] := rfl
    rw [h0, removeChunks_nil, removeIds_nil]
    rfl
  have hSdead : ∀ id ∈ staleIds m.files vault, id ∉ i ∧ id ∉ chunkKeys m := by
    refine staleIds_sub vault m.files _ ?_
    intro vf hvf fr hlk hmm id hid
    rcases hs2 vf hvf fr hlk with hmatch | hright
    · rcases hmm with h | h
      · exact absurd hmatch.1 h
      · exact absurd hmatch.2 h
    · exact hright.2 id hid
  have hrm : removeChunks m.chunks (staleIds m.files vault) = m.chunks := by
    refine removeChunks_eq_self ?_
    intro id hid p hp he
    exact (hSdead id hid).2 (List.mem_map.mpr ⟨p, hp, he⟩)
  have hri : removeIds i (staleIds m.files vault) = i :=
    removeIds_eq_self (fun id hid => (hSdead id hid).1)
  have hqmt : ∀ vf ∈ vault.filter (fun vf => needsProcess m.files vf),
      vf.chunks = [] := by
    intro vf hvf
    obtain ⟨hvf', hnp⟩ := List.mem_filter.mp hvf
    rcases hlk : lookupKey m.files vf.relPath with _ | fr
    · exact hs3 vf hvf' hlk
    · rcases hs2 vf hvf' fr hlk with hmatch | hright
      · exfalso
        unfold needsProcess at hnp
        rw [hlk] at hnp
        dsimp only at hnp
        rcases of_decide_eq_true hnp with h | h
        · exact h hmatch.1
        · exact h hmatch.2
      · exact hright.1
  rw [ensureIndex_pipeline vault m i hm hd]
  unfold pipeline
  dsimp only
  rw [detectPass_spec]
  dsimp only
  rw [hr1]
  dsimp only
  rw [hrm, hri]
  by_cases hq : (vault.filter (fun vf => needsProcess m.files vf)).isEmpty
    = true
  · rw [if_pos hq]
  · rw [if_neg hq]
    have hall : (vault.filter (fun vf => needsProcess m.files vf)).all
        (fun vf => vf.chunks.isEmpty) = true := by
      refine List.all_eq_true.mpr ?_
      intro vf hvf
      rw [hqmt vf hvf]
      rfl
    rw [if_pos hall]

theorem ensure_first (vault : List VaultFile) (m0 : Manifest) (i0 : VIndex)
    (hnd : (vault.map (·.relPath)).Nodup) :
    (ensureIndex false true true vault m0 i0).1.model = EMBEDDING_MODEL ∧
    (ensureIndex false true true vault m0 i0).1.dim = EMBEDDING_DIM ∧
    stableState vault (ensureIndex false true true vault m0 i0).1
      (ensureIndex false true true vault m0 i0).2.1 := by
  by_cases hreb : m0.model = EMBEDDING_MODEL ∧ m0.dim = EMBEDDING_DIM
  · rw [ensureIndex_pipeline vault m0 i0 hreb.1 hreb.2]
    exact ⟨(pipeline_model_dim vault m0 i0).1.trans hreb.1,
      (pipeline_model_dim vault m0 i0).2.trans hreb.2,
      pipeline_stable vault m0 i0 hnd⟩
  · rw [ensureIndex_rebuild false vault m0 i0 (Or.inr (not_and_or.mp hreb))]
    exact ⟨(pipeline_model_dim vault freshManifest []).1,
      (pipeline_model_dim vault freshManifest []).2,
      pipeline_stable vault freshManifest [] hnd⟩

/-- C7: `ensure_index` is idempotent — with no vault change between two
consecutive calls, the second call leaves the manifest and the vector
index exactly as the first call left them and reports
`added = 0, updated = 0, removed = 0`. -/
theorem ensure_index_idempotent (vault : List VaultFile) (m0 : Manifest)
    (i0 : VIndex) (hnd : (vault.map (·.relPath)).Nodup) :
    ensureIndex false true true vault
        (ensureIndex false true true vault m0 i0).1
        (ensureIndex false true true vault m0 i0).2.1
      = ((ensureIndex false true true vault m0 i0).1,
         (ensureIndex false true true vault m0 i0).2.1, (0, 0, 0)) := by
  obtain ⟨h1, h2, h3⟩ := ensure_first vault m0 i0 hnd
  exact stable_noop vault _ _ h3 h1 h2

theorem ensure_index_idempotent_witness :
    ensureIndex false true true wVault7
        (ensureIndex false true true wVault7 freshManifest []).1
        (ensureIndex false true true wVault7 freshManifest []).2.1
      = ((ensureIndex false true true wVault7 freshManifest []).1,
         (ensureIndex false true true wVault7 freshManifest []).2.1,
         (0, 0, 0)) :=
  ensure_index_idempotent wVault7 freshManifest [] (by decide)

/-- C6: after every completed `ensure_index` call the index/manifest
consistency invariant holds — the vector index holds exactly the ids of
the manifest's chunks map, each referenced by exactly one file entry —
and when a previously indexed file has left the vault, a normal
(non-forced, matching model and dimension) call drops its manifest file
entry and leaves none of its prior chunk ids in the vector index or the
chunks map. -/
theorem ensure_index_consistency (force hasFaiss hasKey : Bool)
    (vault : List VaultFile) (m0 : Manifest) (i0 : VIndex)
    (hinv : IndexInv m0 i0) (hnd : (vault.map (·.relPath)).Nodup) :
    IndexInv (ensureIndex force hasFaiss hasKey vault m0 i0).1
      (ensureIndex force hasFaiss hasKey vault m0 i0).2.1 ∧
    (force = false → hasFaiss = true → hasKey = true →
      m0.model = EMBEDDING_MODEL → m0.dim = EMBEDDING_DIM →
      ∀ rel fr, lookupKey m0.files rel = some fr →
        rel ∉ vault.map (·.relPath) →
        lookupKey (ensureIndex force hasFaiss hasKey vault m0 i0).1.files
            rel = none ∧
        ∀ id ∈ fr.chunkIds,
          id ∉ (ensureIndex force hasFaiss hasKey vault m0 i0).2.1 ∧
          id ∉ chunkKeys (ensureIndex force hasFaiss hasKey vault m0 i0).1) := by
  rcases hasFaiss with _ | _
  · exact ⟨hinv, fun _ hf => Bool.noConfusion hf⟩
  · rcases hasKey with _ | _
    · exact ⟨hinv, fun _ _ hk => Bool.noConfusion hk⟩
    · rcases force with _ | _
      · by_cases hreb : m0.model = EMBEDDING_MODEL ∧ m0.dim = EMBEDDING_DIM
        · rw [ensureIndex_pipeline vault m0 i0 hreb.1 hreb.2]
          refine ⟨pipeline_inv vault m0 i0 hinv hnd, ?_⟩
          intro _ _ _ _ _ rel fr hlk hgone
          exact pipeline_deleted vault m0 i0 hinv rel fr hlk hgone
        · rw [ensureIndex_rebuild false vault m0 i0
            (Or.inr (not_and_or.mp hreb))]
          refine ⟨pipeline_inv vault freshManifest [] freshManifest_inv hnd,
            ?_⟩
          intro _ _ _ hm hd
          exact absurd ⟨hm, hd⟩ hreb
      · rw [ensureIndex_rebuild true vault m0 i0 (Or.inl rfl)]
        refine ⟨pipeline_inv vault freshManifest [] freshManifest_inv hnd, ?_⟩
        intro hf
        exact Bool.noConfusion hf

theorem ensure_index_consistency_witness :
    IndexInv (ensureIndex false true true [] wM6 wI6).1
      (ensureIndex false true true [] wM6 wI6).2.1 ∧
    lookupKey (ensureIndex false true true [] wM6 wI6).1.files
      "Cards/old.md" = none ∧
    (0 ∉ (ensureIndex false true true [] wM6 wI6).2.1 ∧
     0 ∉ chunkKeys (ensureIndex false true true [] wM6 wI6).1) := by
  have h := ensure_index_consistency false true true [] wM6 wI6
    ⟨by decide, by decide, by decide, by decide, by decide, by decide,
     by decide⟩ (by decide)
  have h2 := h.2 rfl rfl rfl rfl rfl "Cards/old.md" ⟨1, 5, [0, 1]⟩
    (by decide) (by decide)
  exact ⟨h.1, h2.1, h2.2 0 (by decide)⟩
